import Mathlib

/-!
Verification development for `mktree.py`: a `TreePath` class that parses an
indentation-based textual description of a directory/file tree, re-roots it
(`rebase` / `reparent`), and writes per-extension header comments
(`write_comment`).

Modelling choices (shallow embedding):
* Python strings are embedded as `List Char` (`Str`).
* The mutable object graph of `TreePath` nodes is embedded as an explicit
  arena (`Store := List NodeData`): a node is an index into the store,
  `TreePath.__new__`'s field attachment is allocation at the end of the store,
  and attribute mutation (`add_child`, `children = ...`) is `List.set`.
  This keeps the source's mutation structure observable (needed for the
  frame properties of `rebase`/`reparent`).
* `pathlib.Path` (declared out of scope by the spec, an external collaborator)
  is embedded as its list of parts for relative POSIX paths: constructing a
  path from a string splits on `/` and drops empty and `.` components, so
  `Path(".")` is `[]`; joining concatenates parts; `.name` is the last part.
  `~`-expansion (`expanduser`), absolute paths and `..` normalisation play no
  role in the claims and are not modelled beyond this.
* Recursive operations on the arena (`rebase`, `toTree`) take a fuel
  argument and return `none` when it runs out; the Python recursion always
  terminates on the acyclic stores the program builds, which the
  development proves (`ChildrenIncBelow` and the success lemmas).
* Filesystem state for `write_comment` is the file's content,
  `Option Str` (`none` = the file does not exist; `touch` turns it into `[]`).
-/

namespace Mktree

abbrev Str := List Char

/-- Python `str.isspace` for the ASCII whitespace characters, the character
class stripped by `str.strip()` / `str.rstrip()`. -/
def pyIsSpace (c : Char) : Bool :=
  c == ' ' || c == '\t' || c == '\n' || c == '\r' || c == '\x0b' || c == '\x0c'

/-- Python `s.lstrip(" ")`: drop leading space characters (only `' '`). -/
def pyLstripSpace (s : Str) : Str := s.dropWhile (fun c => c == ' ')

/-- Python `s.rstrip()`: drop trailing whitespace. -/
def pyRstrip (s : Str) : Str := (s.reverse.dropWhile pyIsSpace).reverse

/-- Python `s.strip()`: drop leading and trailing whitespace. -/
def pyStrip (s : Str) : Str := pyRstrip (s.dropWhile pyIsSpace)

/-- Python `s.splitlines()` for the `\n` / `\r\n` / `\r` terminators
(the ones that can occur in the tree-spec texts of this program). -/
def splitLinesGo : Str → Str → List Str
  | [], acc => if acc.isEmpty then [] else [acc.reverse]
  | '\r' :: '\n' :: rest, acc => acc.reverse :: splitLinesGo rest []
  | '\n' :: rest, acc => acc.reverse :: splitLinesGo rest []
  | '\r' :: rest, acc => acc.reverse :: splitLinesGo rest []
  | c :: rest, acc => splitLinesGo rest (c :: acc)

def splitLines (s : Str) : List Str := splitLinesGo s []

/-- Python `tree_text.replace("\t", " " * indent_size)`. -/
def replaceTabs (isz : Nat) : Str → Str
  | [] => []
  | '\t' :: rest => List.replicate isz ' ' ++ replaceTabs isz rest
  | c :: rest => c :: replaceTabs isz rest

/-- Python `content.split("#", 1)`: the part before the first `#` and the
part after it (the whole string and `""` when there is no `#`). -/
def splitFirstHash : Str → Str × Str
  | [] => ([], [])
  | '#' :: rest => ([], rest)
  | c :: rest =>
    let p := splitFirstHash rest
    (c :: p.1, p.2)

/-- Python `s.split("/")`. -/
def splitSlash : Str → List Str
  | [] => [[]]
  | '/' :: rest => [] :: splitSlash rest
  | c :: rest =>
    match splitSlash rest with
    | [] => [c :: []]
    | seg :: segs => (c :: seg) :: segs

/-- The parts of `pathlib.Path(s)` for a relative POSIX path string: split on
`/`, dropping empty and `.` components (pathlib's normalisation). -/
def segsOf (s : Str) : List Str :=
  (splitSlash s).filter (fun seg => !seg.isEmpty && !(seg == ('.' :: [])))

/-- `pathlib.Path.name` of a path given by its parts: the last part
(`""` for the empty path, as for `Path(".")`). -/
def nameOf (segs : List Str) : Str := (segs.getLast?).getD []

/-- `pathlib.Path.suffix`: the last dot-suffix of the final component,
empty when the dot is the first character or absent. -/
def suffixOf (nm : Str) : Str :=
  let i := (nm.reverse.takeWhile (fun c => !(c == '.'))).length
  if nm.reverse.contains '.' && 0 < i && i + 1 < nm.length then
    nm.drop (nm.length - (i + 1))
  else []

/-- One `TreePath` node of the arena: the fields that `TreePath.__new__`
attaches (`children`, `comment`, `is_dir_spec`) plus the underlying
path's parts. -/
structure NodeData where
  segs : List Str
  comment : Str
  is_dir_spec : Bool
  children : List Nat
deriving DecidableEq, Repr

/-- The object arena: node identity is the index into this list. -/
abbrev Store := List NodeData

/-- The list of child ids of node `j` (empty for an absent node). -/
def childrenAt (st : Store) (j : Nat) : List Nat :=
  match st[j]? with
  | some d => d.children
  | none => []

/-- The directory flag of node `j` (`true` for an absent node, so that
out-of-range indices are vacuous in `FileLeaves`). -/
def dirAt (st : Store) (j : Nat) : Bool :=
  match st[j]? with
  | some d => d.is_dir_spec
  | none => true

/-- `TreePath.add_child`: append `cid` to the child list of node `pid`. -/
def add_child (st : Store) (pid cid : Nat) : Option Store :=
  match st[pid]? with
  | none => none
  | some d => some (st.set pid ⟨d.segs, d.comment, d.is_dir_spec, d.children ++ [cid]⟩)

/-- Overwrite the whole child list of node `i`
(Python `node.children = [...]`). -/
def setChildren (st : Store) (i : Nat) (cs : List Nat) : Store :=
  match st[i]? with
  | none => st
  | some d => st.set i ⟨d.segs, d.comment, d.is_dir_spec, cs⟩

/-- The loop of `TreePath.rebase`:
`for c in self.children: new_root.add_child(c.reparent(new_root))`, with
`c.reparent(new_root) = c.rebase(new_root / c.name)` inlined.
`reb` is the rebase function for the remaining fuel. -/
def rebChildren (reb : Store → Nat → List Str → Option (Store × Nat)) :
    Store → Nat → List Nat → Option Store
  | st, _, [] => some st
  | st, nid, c :: cs =>
    match st[nid]?, st[c]? with
    | some pd, some cd =>
      match reb st c (pd.segs ++ segsOf (nameOf cd.segs)) with
      | none => none
      | some (st1, newCid) =>
        match add_child st1 nid newCid with
        | none => none
        | some st2 => rebChildren reb st2 nid cs
    | _, _ => none

/-- `TreePath.rebase(new_root_path)`: allocate a fresh node at the new path
carrying the source node's `comment` and `is_dir_spec`, then reparent each
child under it.  Fuel bounds the recursion depth (the Python recursion is
unbounded; on the acyclic stores this program builds, `st.length` fuel
always suffices, see `rebase_isSome`). -/
def rebase : Nat → Store → Nat → List Str → Option (Store × Nat)
  | 0, _, _, _ => none
  | fuel + 1, st, i, newSegs =>
    match st[i]? with
    | none => none
    | some d =>
      let nid := st.length
      let st1 := st ++ [⟨newSegs, d.comment, d.is_dir_spec, []⟩]
      match rebChildren (rebase fuel) st1 nid d.children with
      | none => none
      | some st2 => some (st2, nid)

/-- `TreePath.reparent(new_parent)`: `self.rebase(new_parent / self.name)`. -/
def reparent (fuel : Nat) (st : Store) (i pid : Nat) : Option (Store × Nat) :=
  match st[pid]?, st[i]? with
  | some pd, some d => rebase fuel st i (pd.segs ++ segsOf (nameOf d.segs))
  | _, _ => none

/-- The list comprehension `[r.reparent(top) for r in raw_roots]`. -/
def reparentAll : Store → Nat → List Nat → Option (Store × List Nat)
  | st, _, [] => some (st, [])
  | st, pid, r :: rs =>
    match reparent st.length st r pid with
    | none => none
    | some (st1, cid) =>
      match reparentAll st1 pid rs with
      | none => none
      | some (st2, cids) => some (st2, cid :: cids)

/-- Parser state of the `for line in lines` loop of `TreePath.from_tree`:
the arena, `raw_roots`, and the `stack` of currently open directories. -/
structure PState where
  store : Store
  roots : List Nat
  stack : List Nat
deriving DecidableEq, Repr

/-- `leading = len(line) - len(line.lstrip(" "))`. -/
def lineLeading (line : Str) : Nat := line.length - (pyLstripSpace line).length

/-- `level = leading // indent_size`. -/
def lineLevel (isz : Nat) (line : Str) : Nat := lineLeading line / isz

/-- `content = line.lstrip(" ")`. -/
def lineContent (line : Str) : Str := pyLstripSpace line

/-- `name_part` after the `#`-split and `rstrip`. -/
def lineNamePart (line : Str) : Str :=
  let content := lineContent line
  if content.contains '#' then pyRstrip (splitFirstHash content).1
  else pyRstrip content

/-- The inline annotation: text after the first `#`, stripped (empty when
there is no `#`). -/
def lineComment (line : Str) : Str :=
  let content := lineContent line
  if content.contains '#' then pyStrip (splitFirstHash content).2
  else []

/-- `stack.append(node)` when the node's level equals the stack size,
`stack[level] = node` otherwise. -/
def pushAt (stack : List Nat) (level nid : Nat) : List Nat :=
  if level = stack.length then stack ++ [nid] else stack.set level nid

/-- One iteration of the parsing loop of `TreePath.from_tree` (lines
114-151 of `mktree.py`).  `none` models the `IndexError` that
`stack[level - 1]` raises when a line is indented deeper than any open
ancestor directory. -/
def parseStep (isz : Nat) (ps : PState) (line : Str) : Option PState :=
  let level := lineLevel isz line
  let namePart := lineNamePart line
  if namePart = [] then some ps
  else
    let comment := lineComment line
    let is_dir : Bool := namePart.getLast? == some '/'
    let name := if namePart.getLast? = some '/' then namePart.dropLast else namePart
    if level = 0 then
      let nid := ps.store.length
      let store' := ps.store ++ [⟨segsOf name, comment, is_dir, []⟩]
      let stack' := if is_dir then pushAt ps.stack 0 nid else ps.stack
      some ⟨store', ps.roots ++ [nid], stack'⟩
    else
      let stack1 := ps.stack.take level
      match stack1[level - 1]? with
      | none => none
      | some pid =>
        match ps.store[pid]? with
        | none => none
        | some pd =>
          let nid := ps.store.length
          let store' := ps.store ++ [⟨pd.segs ++ segsOf name, comment, is_dir, []⟩]
          match add_child store' pid nid with
          | none => none
          | some store'' =>
            let stack' := if is_dir then pushAt stack1 level nid else stack1
            some ⟨store'', ps.roots, stack'⟩

/-- The whole parsing loop. -/
def parseLines (isz : Nat) : PState → List Str → Option PState
  | ps, [] => some ps
  | ps, l :: ls =>
    match parseStep isz ps l with
    | none => none
    | some ps' => parseLines isz ps' ls

/-- `lines = [l.rstrip() for l in tree_text.splitlines() if l.strip()]` after
tab normalisation. -/
def preprocess (text : Str) (isz : Nat) : List Str :=
  ((splitLines (replaceTabs isz text)).filter (fun l => !(pyStrip l).isEmpty)).map pyRstrip

/-- The first pass of `TreePath.from_tree`: parse the spec text into raw
roots (state after the loop over all lines). -/
def parsedState (text : Str) (isz : Nat) : Option PState :=
  parseLines isz ⟨[], [], []⟩ (preprocess text isz)

/-- `TreePath.from_tree(tree_text, root_path, parent_path, indent_size)`:
parse, then the core selection logic.  Returns the arena together with the
id of the returned node; `none` models a raised exception. -/
def from_tree (text : Str) (root_path parent_path : Option Str) (isz : Nat) :
    Option (Store × Nat) :=
  let rp := root_path.map segsOf
  let pp := parent_path.map segsOf
  match parsedState text isz with
  | none => none
  | some ps =>
    match ps.roots with
    | [r] =>
      match pp with
      | some ppSegs =>
        let pid := ps.store.length
        let st1 := ps.store ++ [⟨ppSegs, [], true, []⟩]
        match reparent st1.length st1 r pid with
        | none => none
        | some (st2, cid) => some (setChildren st2 pid (cid :: []), pid)
      | none =>
        match rp with
        | some rpSegs => rebase ps.store.length ps.store r rpSegs
        | none => some (ps.store, r)
    | _ =>
      let topSegs :=
        match pp with
        | some p => p
        | none =>
          match rp with
          | some p => p
          | none => segsOf ('.' :: [])
      let tid := ps.store.length
      let st1 := ps.store ++ [⟨topSegs, [], true, []⟩]
      match reparentAll st1 tid ps.roots with
      | none => none
      | some (st2, cids) => some (setChildren st2 tid cids, tid)

/-- A pure tree value: the observable shape of a node graph. -/
inductive Tree : Type where
  | node : List Str → Str → Bool → List Tree → Tree
deriving Repr

def Tree.segs : Tree → List Str
  | node s _ _ _ => s

def Tree.comment : Tree → Str
  | node _ c _ _ => c

def Tree.dirFlag : Tree → Bool
  | node _ _ d _ => d

def Tree.children : Tree → List Tree
  | node _ _ _ cs => cs

def Tree.name (t : Tree) : Str := nameOf t.segs

/-- Extract the children of a node as pure trees. -/
def toTreeList (g : Nat → Option Tree) : List Nat → Option (List Tree)
  | [] => some []
  | c :: cs =>
    match g c with
    | none => none
    | some t =>
      match toTreeList g cs with
      | none => none
      | some ts => some (t :: ts)

/-- Extract the subtree rooted at node `i` of the arena as a pure tree
(fuel-bounded; `st.length` fuel suffices on the stores this program
builds). -/
def toTree : Nat → Store → Nat → Option Tree
  | 0, _, _ => none
  | fuel + 1, st, i =>
    match st[i]? with
    | none => none
    | some d =>
      match toTreeList (toTree fuel st) d.children with
      | none => none
      | some ts => some (Tree.node d.segs d.comment d.is_dir_spec ts)

/-- `TreePath.write_comment` at the level of file contents: given the
node's `suffix` and `comment` and the current content of the file
(`none` when it does not exist; `touch` makes it empty), the content after
the call.  `st` is the `f.read(4)` classification prefix. -/
def write_comment (sfx comment : Str) (content : Option Str) : Str :=
  let s := content.getD []
  let st := s.take 4
  if sfx = ('.' :: 'p' :: 'y' :: []) ∧ (('\"' :: '\"' :: '\"' :: []).isPrefixOf st) = false then
    ('\"' :: '\"' :: '\"' :: []) ++ comment ++ ('\"' :: '\"' :: '\"' :: []) ++ ('\n' :: []) ++ s
  else if (sfx = ('.' :: 'j' :: 's' :: []) ∨ sfx = ('.' :: 't' :: 's' :: [])) ∧
      (('/' :: '/' :: []).isPrefixOf st) = false then
    ('/' :: '/' :: ' ' :: []) ++ comment ++ ('\n' :: []) ++ s
  else if sfx = ('.' :: 'm' :: 'd' :: []) ∧ pyStrip st = [] then
    comment
  else if sfx = ('.' :: 's' :: 'h' :: []) ∧ (('#' :: ' ' :: []).isPrefixOf st) = false then
    ('#' :: ' ' :: []) ++ comment ++ ('\n' :: []) ++ s
  else s

/-- The argument shape `TreePath.__new__` dispatches on: a Python string or
an already constructed path. -/
inductive PathArg : Type where
  | str : Str → PathArg
  | path : List Str → PathArg
deriving DecidableEq, Repr

/-- The parts contributed by one constructor argument. -/
def argSegs : PathArg → List Str
  | .str s => segsOf s
  | .path p => p

/-- Ordinary `Path(*args)` construction as done by `TreePath.__new__`'s
default branch: join all arguments' parts and attach the `children`,
`comment`, `is_dir_spec` fields with their defaults. -/
def newPathNode (args : List PathArg) : Option (Store × Nat) :=
  some ([⟨(args.map argSegs).flatten, [], false, []⟩], 0)

/-- `TreePath.__new__`: if the first argument is a string containing a
newline, route through `from_tree(args[0])` (all other arguments and all
keyword arguments ignored, `from_tree` defaults); otherwise behave like
normal path construction. -/
def TreePath_new (args : List PathArg) : Option (Store × Nat) :=
  match args with
  | (.str s) :: _ =>
    if s.contains '\n' then from_tree s none none 2
    else newPathNode args
  | _ => newPathNode args

/-! ### Invariants of the stores this program builds, and the rebase
relation on extracted trees -/

/-- Every child id stored below `bound` points strictly upward (parent id
below child id) and stays below `bound`: the region below `bound` is
acyclic and closed under children. -/
abbrev ChildrenIncBelow (bound : Nat) (st : Store) : Prop :=
  ∀ j, j < bound → ∀ c ∈ childrenAt st j, j < c ∧ c < bound

/-- The whole store is acyclic in allocation order. -/
abbrev ChildrenIncFull (st : Store) : Prop := ChildrenIncBelow st.length st

/-- Non-directory nodes never carry children. -/
abbrev FileLeaves (st : Store) : Prop :=
  ∀ j, j < st.length → dirAt st j = false → childrenAt st j = []

/-- Invariant of the parser state: acyclic store, stack entries are valid
directory nodes, root ids are valid, and non-directory nodes are leaves. -/
abbrev PInv (ps : PState) : Prop :=
  ChildrenIncFull ps.store ∧
  (∀ s ∈ ps.stack, s < ps.store.length ∧ dirAt ps.store s = true) ∧
  (∀ r ∈ ps.roots, r < ps.store.length) ∧
  FileLeaves ps.store

mutual
/-- `RebasedAt p t t'` says `t'` is the rebase of `t` at the new path `p`:
the same annotation and directory flag, and the children pairwise rebased
at the recomputed paths `p / child.name`. -/
inductive RebasedAt : List Str → Tree → Tree → Prop where
  | node (p s : List Str) (c : Str) (d : Bool) (cs cs' : List Tree) :
      RebasedKids p cs cs' → RebasedAt p (Tree.node s c d cs) (Tree.node p c d cs')

/-- Pairwise `RebasedAt` for child lists under a common new parent path. -/
inductive RebasedKids : List Str → List Tree → List Tree → Prop where
  | nil (p : List Str) : RebasedKids p [] []
  | cons (p : List Str) (t t' : Tree) (ts ts' : List Tree) :
      RebasedAt (p ++ segsOf (Tree.name t)) t t' → RebasedKids p ts ts' →
      RebasedKids p (t :: ts) (t' :: ts')
end

/-! ### Lemmas about the Python string helpers -/

theorem pyStrip_eq_nil_iff (s : Str) : pyStrip s = [] ↔ ∀ c ∈ s, pyIsSpace c = true := by
  constructor
  · intro h c hc
    unfold pyStrip pyRstrip at h
    rw [List.reverse_eq_nil_iff, List.dropWhile_eq_nil_iff] at h
    have hs := List.takeWhile_append_dropWhile pyIsSpace s
    rcases List.mem_append.mp (show c ∈ _ ++ _ by rw [hs]; exact hc) with h1 | h2
    · exact List.mem_takeWhile_imp h1
    · exact h c (List.mem_reverse.mpr h2)
  · intro h
    unfold pyStrip
    rw [List.dropWhile_eq_nil_iff.mpr (fun c hc => h c hc)]
    rfl

theorem pyStrip_take_eq_nil {s : Str} (h : pyStrip s = []) (n : Nat) :
    pyStrip (s.take n) = [] := by
  rw [pyStrip_eq_nil_iff] at h ⊢
  exact fun c hc => h c (List.mem_of_mem_take hc)

theorem isPrefixOf_take (m : Str) : ∀ (n : Nat) (s : Str), m.length ≤ n →
    m.isPrefixOf (s.take n) = m.isPrefixOf s := by
  induction m with
  | nil => intro n s _; simp [List.isPrefixOf]
  | cons c m ih =>
    intro n s hn
    match n, s with
    | 0, s => simp at hn
    | n + 1, [] => rfl
    | n + 1, a :: s =>
      simp only [List.take_succ_cons, List.isPrefixOf]
      rw [ih n s (by simpa using hn)]

/-! ### Closed forms of `write_comment` for each recognised suffix -/

theorem wc_py (c : Str) (x : Option Str) :
    write_comment ('.' :: 'p' :: 'y' :: []) c x =
      (if (('\"' :: '\"' :: '\"' :: []).isPrefixOf ((x.getD []).take 4)) = false
       then ('\"' :: '\"' :: '\"' :: []) ++ c ++ ('\"' :: '\"' :: '\"' :: []) ++
         ('\n' :: []) ++ x.getD []
       else x.getD []) := by
  by_cases hc : (('\"' :: '\"' :: '\"' :: []).isPrefixOf ((x.getD []).take 4)) = false <;>
    simp [write_comment, hc]

theorem wc_js (c : Str) (x : Option Str) :
    write_comment ('.' :: 'j' :: 's' :: []) c x =
      (if (('/' :: '/' :: []).isPrefixOf ((x.getD []).take 4)) = false
       then ('/' :: '/' :: ' ' :: []) ++ c ++ ('\n' :: []) ++ x.getD []
       else x.getD []) := by
  by_cases hc : (('/' :: '/' :: []).isPrefixOf ((x.getD []).take 4)) = false <;>
    simp [write_comment, hc]

theorem wc_ts (c : Str) (x : Option Str) :
    write_comment ('.' :: 't' :: 's' :: []) c x =
      (if (('/' :: '/' :: []).isPrefixOf ((x.getD []).take 4)) = false
       then ('/' :: '/' :: ' ' :: []) ++ c ++ ('\n' :: []) ++ x.getD []
       else x.getD []) := by
  by_cases hc : (('/' :: '/' :: []).isPrefixOf ((x.getD []).take 4)) = false <;>
    simp [write_comment, hc]

theorem wc_md (c : Str) (x : Option Str) :
    write_comment ('.' :: 'm' :: 'd' :: []) c x =
      (if pyStrip ((x.getD []).take 4) = [] then c else x.getD []) := by
  by_cases hc : pyStrip ((x.getD []).take 4) = [] <;>
    simp [write_comment, hc]

theorem wc_sh (c : Str) (x : Option Str) :
    write_comment ('.' :: 's' :: 'h' :: []) c x =
      (if (('#' :: ' ' :: []).isPrefixOf ((x.getD []).take 4)) = false
       then ('#' :: ' ' :: []) ++ c ++ ('\n' :: []) ++ x.getD []
       else x.getD []) := by
  by_cases hc : (('#' :: ' ' :: []).isPrefixOf ((x.getD []).take 4)) = false <;>
    simp [write_comment, hc]

theorem wc_other (sfx c : Str)
    (h1 : sfx ≠ ('.' :: 'p' :: 'y' :: [])) (h2 : sfx ≠ ('.' :: 'j' :: 's' :: []))
    (h3 : sfx ≠ ('.' :: 't' :: 's' :: [])) (h4 : sfx ≠ ('.' :: 'm' :: 'd' :: []))
    (h5 : sfx ≠ ('.' :: 's' :: 'h' :: [])) (x : Option Str) :
    write_comment sfx c x = x.getD [] := by
  simp [write_comment, h1, h2, h3, h4, h5]

/-- Claim C7 (counterexample): a `.md` file whose content is four spaces
followed by `x` is not whitespace-only, yet `write_comment` replaces the whole
content with the raw annotation (losing the prior content), because the code
classifies by the first four characters only (`f.read(4)`). -/
theorem md_overwrite_counterexample :
    pyStrip (' ' :: ' ' :: ' ' :: ' ' :: 'x' :: []) ≠ [] ∧
    write_comment ('.' :: 'm' :: 'd' :: []) ('h' :: 'i' :: [])
        (some (' ' :: ' ' :: ' ' :: ' ' :: 'x' :: [])) = ('h' :: 'i' :: []) ∧
    ('h' :: 'i' :: []) ≠ (' ' :: ' ' :: ' ' :: ' ' :: 'x' :: []) := by
  refine ⟨by decide, by decide, by decide⟩

/-- Claim C7 (amended): for a `.md` file, `write_comment` writes the raw
annotation as the entire file content exactly when the first four characters
of the existing content strip to nothing — in particular whenever the file is
empty or whitespace-only; a `.md` file with a non-whitespace character among
its first four characters is left untouched. -/
theorem md_write_comment_spec (comment s : Str) :
    (pyStrip s = [] →
        write_comment ('.' :: 'm' :: 'd' :: []) comment (some s) = comment) ∧
    write_comment ('.' :: 'm' :: 'd' :: []) comment (some s) =
      (if pyStrip (s.take 4) = [] then comment else s) := by
  have hmain : write_comment ('.' :: 'm' :: 'd' :: []) comment (some s) =
      (if pyStrip (s.take 4) = [] then comment else s) := by
    rw [wc_md, Option.getD_some]
  exact ⟨fun h => by rw [hmain, if_pos (pyStrip_take_eq_nil h 4)], hmain⟩

/-- Witness for `md_write_comment_spec` at a concrete whitespace-only file. -/
theorem md_write_comment_spec_w :
    write_comment ('.' :: 'm' :: 'd' :: []) ('h' :: 'i' :: [])
        (some (' ' :: ' ' :: [])) = ('h' :: 'i' :: []) :=
  (md_write_comment_spec ('h' :: 'i' :: []) (' ' :: ' ' :: [])).1 (by decide)

/-- Claim C2: materialising a file twice produces the same content as
materialising it once — `write_comment` is idempotent on file contents — and
a `.py` file whose content already begins with the string-literal delimiter
is left untouched, so no header line is ever duplicated. -/
theorem write_comment_idempotent :
    (∀ sfx comment content,
        write_comment sfx comment (some (write_comment sfx comment content)) =
          write_comment sfx comment content) ∧
    (∀ comment s, (('\"' :: '\"' :: '\"' :: []).isPrefixOf s) = true →
        write_comment ('.' :: 'p' :: 'y' :: []) comment (some s) = s) := by
  constructor
  · intro sfx comment content
    by_cases h1 : sfx = ('.' :: 'p' :: 'y' :: [])
    · subst h1
      by_cases hc : (('\"' :: '\"' :: '\"' :: []).isPrefixOf
          ((content.getD []).take 4)) = false <;>
        simp [wc_py, hc, List.isPrefixOf]
    by_cases h2 : sfx = ('.' :: 'j' :: 's' :: [])
    · subst h2
      by_cases hc : (('/' :: '/' :: []).isPrefixOf ((content.getD []).take 4)) = false <;>
        simp [wc_js, hc, List.isPrefixOf]
    by_cases h3 : sfx = ('.' :: 't' :: 's' :: [])
    · subst h3
      by_cases hc : (('/' :: '/' :: []).isPrefixOf ((content.getD []).take 4)) = false <;>
        simp [wc_ts, hc, List.isPrefixOf]
    by_cases h4 : sfx = ('.' :: 'm' :: 'd' :: [])
    · subst h4
      by_cases hc : pyStrip ((content.getD []).take 4) = [] <;>
        simp [wc_md, hc]
    by_cases h5 : sfx = ('.' :: 's' :: 'h' :: [])
    · subst h5
      by_cases hc : (('#' :: ' ' :: []).isPrefixOf ((content.getD []).take 4)) = false <;>
        simp [wc_sh, hc, List.isPrefixOf]
    simp only [wc_other sfx comment h1 h2 h3 h4 h5, Option.getD_some]
  · intro comment s h
    have h4 : (('\"' :: '\"' :: '\"' :: []).isPrefixOf (s.take 4)) = true := by
      rw [isPrefixOf_take ('\"' :: '\"' :: '\"' :: []) 4 s (by decide)]
      exact h
    rw [wc_py, Option.getD_some, if_neg (by simp [h4])]

/-- Witness for `write_comment_idempotent` on a `.py` file that already
carries the delimiter. -/
theorem write_comment_idempotent_w :
    write_comment ('.' :: 'p' :: 'y' :: []) ('h' :: [])
        (some ('\"' :: '\"' :: '\"' :: 'x' :: [])) =
      ('\"' :: '\"' :: '\"' :: 'x' :: []) :=
  write_comment_idempotent.2 ('h' :: []) ('\"' :: '\"' :: '\"' :: 'x' :: []) (by decide)

/-- Claim C10: `TreePath.__new__` dispatches on the first argument — a string
containing a newline routes to `from_tree` with all default parameters,
ignoring every other constructor argument; any other argument list builds an
ordinary path node with empty children, empty annotation and a false
directory flag. -/
theorem constructor_newline_dispatch :
    (∀ s rest, s.contains '\n' = true →
        TreePath_new (PathArg.str s :: rest) = from_tree s none none 2) ∧
    (∀ args : List PathArg,
        (∀ s rest, args = PathArg.str s :: rest → s.contains '\n' = false) →
        TreePath_new args =
          some ([⟨(args.map argSegs).flatten, [], false, []⟩], 0)) := by
  constructor
  · intro s rest h
    have h' : '\n' ∈ s := by simpa using h
    simp [TreePath_new, h']
  · intro args h
    match args with
    | [] => rfl
    | PathArg.str s :: rest =>
      have hs : '\n' ∉ s := by simpa using h s rest rfl
      simp [TreePath_new, hs, newPathNode]
    | PathArg.path p :: rest => rfl

/-- Witness for `constructor_newline_dispatch`: a newline-containing string
argument routes to `from_tree`. -/
theorem constructor_newline_dispatch_w :
    TreePath_new [PathArg.str ('x' :: '\n' :: 'y' :: [])] =
      from_tree ('x' :: '\n' :: 'y' :: []) none none 2 :=
  constructor_newline_dispatch.1 ('x' :: '\n' :: 'y' :: []) [] (by decide)

/-- Claim C5: a spec text that parses to exactly one root, assembled with
neither `root_path` nor `parent_path`, returns that very root unchanged:
the same arena and the same node id (hence the same shape, names,
annotations and directory flags). -/
theorem single_root_passthrough (text : Str) (isz : Nat) (ps : PState) (r : Nat)
    (hp : parsedState text isz = some ps) (hr : ps.roots = [r]) :
    from_tree text none none isz = some (ps.store, r) := by
  simp only [from_tree, hp, hr, Option.map_none']

/-- Witness for `single_root_passthrough` on the spec `"a/\n  b"`. -/
theorem single_root_passthrough_w :
    from_tree ('a' :: '/' :: '\n' :: ' ' :: ' ' :: 'b' :: []) none none 2 =
      some ([⟨[('a' :: [])], [], true, [1]⟩,
             ⟨[('a' :: []), ('b' :: [])], [], false, []⟩], 0) :=
  single_root_passthrough ('a' :: '/' :: '\n' :: ' ' :: ' ' :: 'b' :: []) 2
    ⟨[⟨[('a' :: [])], [], true, [1]⟩,
      ⟨[('a' :: []), ('b' :: [])], [], false, []⟩], [0], [0]⟩ 0 rfl rfl

/-- Claim C8: a line indented to a level strictly greater than the number of
currently open ancestor directories makes the parser fail — modelled by
`parseStep` returning `none` where Python raises `IndexError` from
`stack[level - 1]` — and in particular parsing `"a.py\n    b.py"` with the
default indent fails instead of returning a tree. -/
theorem overindented_line_fails :
    (∀ isz ps line, lineNamePart line ≠ [] →
        0 < lineLevel isz line → ps.stack.length < lineLevel isz line →
        parseStep isz ps line = none) ∧
    from_tree ('a' :: '.' :: 'p' :: 'y' :: '\n' :: ' ' :: ' ' :: ' ' :: ' ' ::
        'b' :: '.' :: 'p' :: 'y' :: []) none none 2 = none := by
  constructor
  · intro isz ps line hname hlvl hstack
    have hnone : (ps.stack.take (lineLevel isz line))[lineLevel isz line - 1]? = none := by
      apply List.getElem?_eq_none
      rw [List.length_take]
      omega
    simp only [parseStep]
    rw [if_neg hname, if_neg (by omega : ¬ lineLevel isz line = 0), hnone]
  · rfl

/-- Witness for `overindented_line_fails`: the second line of the example,
at level 2 over an empty stack. -/
theorem overindented_line_fails_w :
    parseStep 2 ⟨[], [], []⟩ (' ' :: ' ' :: ' ' :: ' ' :: 'b' :: []) = none :=
  overindented_line_fails.1 2 ⟨[], [], []⟩ (' ' :: ' ' :: ' ' :: ' ' :: 'b' :: [])
    (by decide) (by decide) (by decide)

/-- Claim C1: parsing `"a/\n  b.py # init\n  c/\n    d.txt"` with default
parameters returns a single directory-flagged root at path `a` whose children,
in order, are the file `a/b.py` with annotation `init` and the directory
`a/c` whose sole child is the file `a/c/d.txt`. -/
theorem example_tree_parse :
    ((from_tree ("a/\n  b.py # init\n  c/\n    d.txt".data) none none 2).bind
        fun pr => toTree pr.1.length pr.1 pr.2) =
      some (Tree.node [['a']] [] true
        [Tree.node [['a'], ['b', '.', 'p', 'y']] ['i', 'n', 'i', 't'] false [],
         Tree.node [['a'], ['c']] [] true
           [Tree.node [['a'], ['c'], ['d', '.', 't', 'x', 't']] [] false []]]) := by
  rfl

/-! ### Store and rebase lemmas -/

theorem getElem?_append_left {st tail : Store} {j : Nat} (h : j < st.length) :
    (st ++ tail)[j]? = st[j]? := by
  rw [List.getElem?_append, if_pos h]

theorem add_child_some {st : Store} {pid : Nat} {d : NodeData} (cid : Nat)
    (h : st[pid]? = some d) :
    add_child st pid cid =
      some (st.set pid ⟨d.segs, d.comment, d.is_dir_spec, d.children ++ [cid]⟩) := by
  simp [add_child, h]

/-- Frame and shape facts about one `rebase` call: the result id is the old
store length, the store only grows, every pre-existing entry is untouched,
and the new root carries the source node's comment and flag with exactly as
many children as the source. The second component is the invariant of the
child loop `rebChildren`. -/
theorem rebase_frame : ∀ fuel : Nat,
    (∀ st i p st' n, rebase fuel st i p = some (st', n) →
      n = st.length ∧
      st.length < st'.length ∧
      (∀ j, j < st.length → st'[j]? = st[j]?) ∧
      (∀ d, st[i]? = some d →
        ∃ cids, st'[n]? = some ⟨p, d.comment, d.is_dir_spec, cids⟩ ∧
          cids.length = d.children.length)) ∧
    (∀ cs st nid st', rebChildren (rebase fuel) st nid cs = some st' →
      nid < st.length →
      st.length ≤ st'.length ∧
      (∀ j, j < st.length → j ≠ nid → st'[j]? = st[j]?) ∧
      (∀ d, st[nid]? = some d →
        ∃ tail, st'[nid]? = some ⟨d.segs, d.comment, d.is_dir_spec, d.children ++ tail⟩ ∧
          tail.length = cs.length)) := by
  intro fuel
  induction fuel with
  | zero =>
    constructor
    · intro st i p st' n h
      simp [rebase] at h
    · intro cs st nid st' h hnid
      match cs with
      | [] =>
        simp only [rebChildren, Option.some.injEq] at h
        subst h
        refine ⟨Nat.le_refl _, fun j _ _ => rfl, fun d hd => ⟨[], ?_, rfl⟩⟩
        simpa using hd
      | c :: cs =>
        simp only [rebChildren] at h
        cases hpd : st[nid]? with
        | none => simp [hpd] at h
        | some pd =>
          cases hcd : st[c]? with
          | none => simp [hpd, hcd] at h
          | some cd => simp [hpd, hcd, rebase] at h
  | succ fuel ih =>
    have hR : ∀ st i p st' n, rebase (fuel + 1) st i p = some (st', n) →
        n = st.length ∧
        st.length < st'.length ∧
        (∀ j, j < st.length → st'[j]? = st[j]?) ∧
        (∀ d, st[i]? = some d →
          ∃ cids, st'[n]? = some ⟨p, d.comment, d.is_dir_spec, cids⟩ ∧
            cids.length = d.children.length) := by
      intro st i p st' n h
      rw [rebase] at h
      cases hd : st[i]? with
      | none => simp only [hd] at h; exact Option.noConfusion h
      | some d =>
        simp only [hd] at h
        cases hc : rebChildren (rebase fuel)
            (st ++ [⟨p, d.comment, d.is_dir_spec, []⟩]) st.length d.children with
        | none => simp only [hc] at h; exact Option.noConfusion h
        | some st2 =>
          simp only [hc, Option.some.injEq, Prod.mk.injEq] at h
          obtain ⟨h1, h2⟩ := h
          subst h1; subst h2
          have hnid : st.length < (st ++ [(⟨p, d.comment, d.is_dir_spec, []⟩ : NodeData)]).length := by
            simp
          obtain ⟨hlen, hframe, hentry⟩ := ih.2 d.children _ st.length st2 hc hnid
          have hnew : (st ++ [(⟨p, d.comment, d.is_dir_spec, []⟩ : NodeData)])[st.length]? =
              some ⟨p, d.comment, d.is_dir_spec, []⟩ := by
            simp
          obtain ⟨tail, htail, htlen⟩ := hentry _ hnew
          refine ⟨rfl, ?_, ?_, ?_⟩
          · simp at hlen; omega
          · intro j hj
            rw [hframe j (by simp; omega) (by omega), getElem?_append_left hj]
          · intro d' hd'
            obtain rfl : d = d' := by simpa using hd'
            exact ⟨tail, by simpa using htail, by simpa using htlen⟩
    refine ⟨hR, ?_⟩
    intro cs
    induction cs with
    | nil =>
      intro st nid st' h hnid
      simp only [rebChildren, Option.some.injEq] at h
      subst h
      refine ⟨Nat.le_refl _, fun j _ _ => rfl, fun d hd => ⟨[], ?_, rfl⟩⟩
      simpa using hd
    | cons c cs ihcs =>
      intro st nid st' h hnid
      simp only [rebChildren] at h
      cases hpd : st[nid]? with
      | none => simp [hpd] at h
      | some pd =>
        cases hcd : st[c]? with
        | none => simp [hpd, hcd] at h
        | some cd =>
          simp only [hpd, hcd] at h
          cases hreb : rebase (fuel + 1) st c (pd.segs ++ segsOf (nameOf cd.segs)) with
          | none => simp [hreb] at h
          | some pr =>
            obtain ⟨st1, newCid⟩ := pr
            simp only [hreb] at h
            obtain ⟨hn1, hlen1, hframe1, _⟩ := hR st c _ st1 newCid hreb
            have hnid1 : st1[nid]? = some pd := by
              rw [hframe1 nid hnid, hpd]
            rw [add_child_some newCid hnid1] at h
            have hlenB : (st1.set nid
                (⟨pd.segs, pd.comment, pd.is_dir_spec, pd.children ++ [newCid]⟩ : NodeData)).length =
                st1.length := by
              simp
            obtain ⟨hlen2, hframe2, hentry2⟩ := ihcs _ nid st' h (by omega)
            have hsetnid : (st1.set nid
                (⟨pd.segs, pd.comment, pd.is_dir_spec, pd.children ++ [newCid]⟩ : NodeData))[nid]? =
                some ⟨pd.segs, pd.comment, pd.is_dir_spec, pd.children ++ [newCid]⟩ :=
              List.getElem?_set_self (by omega)
            refine ⟨by omega, ?_, ?_⟩
            · intro j hj hne
              rw [hframe2 j (by omega) hne, List.getElem?_set_ne hne.symm,
                hframe1 j hj]
            · intro d hd
              obtain rfl : pd = d := by simpa using hd
              obtain ⟨tail', htail', htlen'⟩ := hentry2 _ hsetnid
              refine ⟨newCid :: tail', ?_, by simpa using htlen'⟩
              rw [htail']
              simp

theorem lt_length_of_getElem?_some {α : Type} {l : List α} {i : Nat} {a : α}
    (h : l[i]? = some a) : i < l.length := by
  by_contra hh
  rw [List.getElem?_eq_none (by omega)] at h
  exact Option.noConfusion h

theorem childrenAt_eq (st : Store) {j : Nat} {d : NodeData} (h : st[j]? = some d) :
    childrenAt st j = d.children := by
  simp [childrenAt, h]

theorem dirAt_eq (st : Store) {j : Nat} {d : NodeData} (h : st[j]? = some d) :
    dirAt st j = d.is_dir_spec := by
  simp [dirAt, h]

theorem childrenIncBelow_of_agree {B : Nat} {st st' : Store}
    (h : ChildrenIncBelow B st) (hag : ∀ j, j < B → st'[j]? = st[j]?) :
    ChildrenIncBelow B st' := by
  intro j hj c hc
  refine h j hj c ?_
  unfold childrenAt at hc ⊢
  rw [hag j hj] at hc
  exact hc

theorem childrenIncFull_append {st : Store} {d : NodeData} (hd : d.children = [])
    (h : ChildrenIncFull st) : ChildrenIncFull (st ++ [d]) := by
  intro j hj c hc
  simp only [List.length_append, List.length_cons, List.length_nil] at hj
  by_cases hjl : j < st.length
  · have := h j hjl c (by rwa [childrenAt, getElem?_append_left hjl] at hc; )
    simp only [List.length_append]
    omega
  · have hjeq : j = st.length := by omega
    subst hjeq
    simp only [childrenAt, List.getElem?_concat_length] at hc
    rw [hd] at hc
    exact absurd hc (List.not_mem_nil c)

theorem childrenIncFull_set {st : Store} {nid : Nat} {d : NodeData} {cs : List Nat}
    (h : ChildrenIncFull st) (hnid : st[nid]? = some d)
    (hcs : ∀ c ∈ cs, nid < c ∧ c < st.length) :
    ChildrenIncFull (st.set nid ⟨d.segs, d.comment, d.is_dir_spec, cs⟩) := by
  intro j hj c hc
  rw [List.length_set] at hj ⊢
  by_cases hje : j = nid
  · subst hje
    rw [childrenAt, List.getElem?_set_self (by omega)] at hc
    exact hcs c hc
  · rw [childrenAt, List.getElem?_set_ne (fun hh => hje hh.symm)] at hc
    exact h j hj c hc

theorem fileLeaves_append {st : Store} {d : NodeData}
    (hd : d.children = [] ∨ d.is_dir_spec = true) (h : FileLeaves st) :
    FileLeaves (st ++ [d]) := by
  intro j hj hdir
  simp only [List.length_append, List.length_cons, List.length_nil] at hj
  by_cases hjl : j < st.length
  · rw [dirAt, getElem?_append_left hjl] at hdir
    rw [childrenAt, getElem?_append_left hjl]
    exact h j hjl hdir
  · have hjeq : j = st.length := by omega
    subst hjeq
    simp only [dirAt, List.getElem?_concat_length] at hdir
    simp only [childrenAt, List.getElem?_concat_length]
    rcases hd with hd | hd
    · exact hd
    · rw [hd] at hdir; exact absurd hdir (by simp)

theorem fileLeaves_set {st : Store} {nid : Nat} {d : NodeData} {cs : List Nat}
    (h : FileLeaves st) (hnid : st[nid]? = some d) (hdir : d.is_dir_spec = true) :
    FileLeaves (st.set nid ⟨d.segs, d.comment, d.is_dir_spec, cs⟩) := by
  intro j hj hd
  rw [List.length_set] at hj
  by_cases hje : j = nid
  · subst hje
    rw [dirAt, List.getElem?_set_self (by omega)] at hd
    simp only at hd
    rw [hdir] at hd
    exact absurd hd (by simp)
  · rw [dirAt, List.getElem?_set_ne (fun hh => hje hh.symm)] at hd
    rw [childrenAt, List.getElem?_set_ne (fun hh => hje hh.symm)]
    exact h j hj hd

/-- `rebase` preserves the acyclicity invariant and the files-are-leaves
invariant of the store. -/
theorem rebase_preserves : ∀ fuel : Nat,
    (∀ st i p st' n, rebase fuel st i p = some (st', n) →
      ChildrenIncFull st →
      ChildrenIncFull st' ∧ (FileLeaves st → FileLeaves st')) ∧
    (∀ cs st nid st', rebChildren (rebase fuel) st nid cs = some st' →
      nid < st.length → ChildrenIncFull st →
      ChildrenIncFull st' ∧
        (FileLeaves st → (cs ≠ [] → dirAt st nid = true) → FileLeaves st')) := by
  intro fuel
  induction fuel with
  | zero =>
    constructor
    · intro st i p st' n h
      simp [rebase] at h
    · intro cs st nid st' h hnid hInc
      match cs with
      | [] =>
        simp only [rebChildren, Option.some.injEq] at h
        subst h
        exact ⟨hInc, fun hf _ => hf⟩
      | c :: cs =>
        simp only [rebChildren] at h
        cases hpd : st[nid]? with
        | none => simp [hpd] at h
        | some pd =>
          cases hcd : st[c]? with
          | none => simp [hpd, hcd] at h
          | some cd => simp [hpd, hcd, rebase] at h
  | succ fuel ih =>
    have hR : ∀ st i p st' n, rebase (fuel + 1) st i p = some (st', n) →
        ChildrenIncFull st →
        ChildrenIncFull st' ∧ (FileLeaves st → FileLeaves st') := by
      intro st i p st' n h hInc
      rw [rebase] at h
      cases hd : st[i]? with
      | none => simp only [hd] at h; exact Option.noConfusion h
      | some d =>
        simp only [hd] at h
        cases hc : rebChildren (rebase fuel)
            (st ++ [⟨p, d.comment, d.is_dir_spec, []⟩]) st.length d.children with
        | none => simp only [hc] at h; exact Option.noConfusion h
        | some st2 =>
          simp only [hc, Option.some.injEq, Prod.mk.injEq] at h
          obtain ⟨h1, h2⟩ := h
          subst h1
          have hInc1 : ChildrenIncFull (st ++ [(⟨p, d.comment, d.is_dir_spec, []⟩ : NodeData)]) :=
            childrenIncFull_append rfl hInc
          have hnid : st.length < (st ++ [(⟨p, d.comment, d.is_dir_spec, []⟩ : NodeData)]).length := by
            simp
          obtain ⟨hA, hB⟩ := ih.2 d.children _ st.length st2 hc hnid hInc1
          refine ⟨hA, fun hf => hB (fileLeaves_append (Or.inl rfl) hf) (fun hne => ?_)⟩
          have hi : i < st.length := lt_length_of_getElem?_some hd
          have hflag : d.is_dir_spec = true := by
            by_cases hb : d.is_dir_spec = true
            · exact hb
            · have : childrenAt st i = [] :=
                hf i hi (by rw [dirAt_eq st hd]; simpa using hb)
              rw [childrenAt_eq st hd] at this
              exact absurd this hne
          simp only [dirAt, List.getElem?_concat_length]
          exact hflag
    refine ⟨hR, ?_⟩
    intro cs
    induction cs with
    | nil =>
      intro st nid st' h hnid hInc
      simp only [rebChildren, Option.some.injEq] at h
      subst h
      exact ⟨hInc, fun hf _ => hf⟩
    | cons c cs ihcs =>
      intro st nid st' h hnid hInc
      simp only [rebChildren] at h
      cases hpd : st[nid]? with
      | none => simp [hpd] at h
      | some pd =>
        cases hcd : st[c]? with
        | none => simp [hpd, hcd] at h
        | some cd =>
          simp only [hpd, hcd] at h
          cases hreb : rebase (fuel + 1) st c (pd.segs ++ segsOf (nameOf cd.segs)) with
          | none => simp [hreb] at h
          | some pr =>
            obtain ⟨st1, newCid⟩ := pr
            simp only [hreb] at h
            obtain ⟨hn1, hlen1, hframe1, _⟩ := (rebase_frame (fuel + 1)).1 st c _ st1 newCid hreb
            obtain ⟨hIncA, hLeafA⟩ := hR st c _ st1 newCid hreb hInc
            have hnid1 : st1[nid]? = some pd := by
              rw [hframe1 nid hnid, hpd]
            rw [add_child_some newCid hnid1] at h
            have hIncB : ChildrenIncFull (st1.set nid
                ⟨pd.segs, pd.comment, pd.is_dir_spec, pd.children ++ [newCid]⟩) := by
              apply childrenIncFull_set hIncA hnid1
              intro c' hc'
              rcases List.mem_append.mp hc' with hc' | hc'
              · have := hInc nid hnid c' (by rw [childrenAt_eq st hpd]; exact hc')
                omega
              · simp only [List.mem_singleton] at hc'
                subst hc'
                omega
            obtain ⟨hA, hB⟩ := ihcs _ nid st' h (by rw [List.length_set]; omega) hIncB
            refine ⟨hA, fun hf hdir => ?_⟩
            have hdirn : pd.is_dir_spec = true := by
              have := hdir (by simp)
              rwa [dirAt_eq st hpd] at this
            refine hB (fileLeaves_set (hLeafA hf) hnid1 hdirn) (fun _ => ?_)
            simp only [dirAt, List.getElem?_set_self (show nid < st1.length by omega)]
            exact hdirn

/-- `rebase` succeeds whenever the rebased node lives in an acyclic region
below `L` and the fuel is at least `L - i` (so `st.length` fuel always
suffices for a node of the store). -/
theorem rebase_isSome : ∀ (fuel L : Nat),
    (∀ st i p, ChildrenIncBelow L st → L ≤ st.length → i < L → L - i ≤ fuel →
      (rebase fuel st i p).isSome = true) ∧
    (∀ cs st nid, ChildrenIncBelow L st → L ≤ st.length → nid < st.length → L ≤ nid →
      (∀ c ∈ cs, c < L ∧ L - c ≤ fuel) →
      (rebChildren (rebase fuel) st nid cs).isSome = true) := by
  intro fuel L
  induction fuel with
  | zero =>
    constructor
    · intro st i p _ _ hi hf
      omega
    · intro cs st nid _ _ _ _ hcs
      match cs with
      | [] => rfl
      | c :: cs =>
        have := hcs c (List.mem_cons_self c cs)
        omega
  | succ fuel ih =>
    have hR : ∀ st i p, ChildrenIncBelow L st → L ≤ st.length → i < L →
        L - i ≤ fuel + 1 → (rebase (fuel + 1) st i p).isSome = true := by
      intro st i p hB hL hi hf
      have hlt : i < st.length := by omega
      obtain ⟨d, hd⟩ : ∃ d, st[i]? = some d := ⟨st[i], List.getElem?_eq_getElem hlt⟩
      simp only [rebase, hd]
      have hcs : ∀ c ∈ d.children, c < L ∧ L - c ≤ fuel := by
        intro c hc
        have := hB i hi c (by rw [childrenAt_eq st hd]; exact hc)
        omega
      have hsome := ih.2 d.children
          (st ++ [⟨p, d.comment, d.is_dir_spec, []⟩]) st.length
          (childrenIncBelow_of_agree hB
            (fun j hj => getElem?_append_left (by omega)))
          (by simp only [List.length_append, List.length_cons, List.length_nil]; omega)
          (by simp only [List.length_append, List.length_cons, List.length_nil]; omega)
          hL hcs
      obtain ⟨st2, hst2⟩ := Option.isSome_iff_exists.mp hsome
      simp only [hst2]
      rfl
    refine ⟨hR, ?_⟩
    intro cs
    induction cs with
    | nil => intro st nid _ _ _ _ _; rfl
    | cons c cs ihcs =>
      intro st nid hB hL hnid hLnid hcs
      have hc := hcs c (List.mem_cons_self c cs)
      have hcl : c < st.length := by omega
      obtain ⟨cd, hcd⟩ : ∃ cd, st[c]? = some cd := ⟨st[c], List.getElem?_eq_getElem hcl⟩
      obtain ⟨pd, hpd⟩ : ∃ pd, st[nid]? = some pd := ⟨st[nid], List.getElem?_eq_getElem hnid⟩
      simp only [rebChildren, hpd, hcd]
      have hsome := hR st c (pd.segs ++ segsOf (nameOf cd.segs)) hB hL hc.1 hc.2
      obtain ⟨pr, hpr⟩ := Option.isSome_iff_exists.mp hsome
      obtain ⟨st1, newCid⟩ := pr
      simp only [hpr]
      obtain ⟨hn1, hlen1, hframe1, _⟩ := (rebase_frame (fuel + 1)).1 st c _ st1 newCid hpr
      have hnid1 : st1[nid]? = some pd := by
        rw [hframe1 nid hnid, hpd]
      rw [add_child_some newCid hnid1]
      apply ihcs
      · refine childrenIncBelow_of_agree hB (fun j hj => ?_)
        rw [List.getElem?_set_ne (show nid ≠ j by omega), hframe1 j (by omega)]
      · rw [List.length_set]; omega
      · rw [List.length_set]; omega
      · exact hLnid
      · intro c' hc'
        have := hcs c' (List.mem_cons_of_mem c hc')
        omega

/-! ### Extraction lemmas -/

theorem toTreeList_congr {g g' : Nat → Option Tree} :
    ∀ {cs : List Nat}, (∀ c ∈ cs, g c = g' c) →
      toTreeList g cs = toTreeList g' cs := by
  intro cs
  induction cs with
  | nil => intro _; rfl
  | cons c cs ih =>
    intro h
    simp only [toTreeList]
    rw [h c (List.mem_cons_self c cs), ih (fun c' hc' => h c' (List.mem_cons_of_mem c hc'))]

/-- `toTree` only reads entries at indices `≥ i` when the store is acyclic,
so it is stable under changes confined to other regions. -/
theorem toTree_agreeFrom : ∀ (f : Nat) (lo : Nat) (st st' : Store),
    ChildrenIncFull st → (∀ j, lo ≤ j → j < st.length → st'[j]? = st[j]?) →
    ∀ i, lo ≤ i → i < st.length → toTree f st' i = toTree f st i := by
  intro f
  induction f with
  | zero => intro lo st st' _ _ i _ _; rfl
  | succ f ih =>
    intro lo st st' hInc hag i hlo hi
    cases hd : st[i]? with
    | none => simp only [toTree, hag i hlo hi, hd]
    | some d =>
      have hcongr : toTreeList (toTree f st') d.children =
          toTreeList (toTree f st) d.children := by
        apply toTreeList_congr
        intro c hc
        have hb := hInc i hi c (by rw [childrenAt_eq st hd]; exact hc)
        exact ih lo st st' hInc hag c (by omega) hb.2
      simp only [toTree, hag i hlo hi, hd, hcongr]

/-- `toTree` below a closed region `B` is stable under agreement below `B`. -/
theorem toTree_agreeBelow : ∀ (f : Nat) (B : Nat) (st st' : Store),
    ChildrenIncBelow B st → (∀ j, j < B → st'[j]? = st[j]?) →
    ∀ i, i < B → toTree f st' i = toTree f st i := by
  intro f
  induction f with
  | zero => intro B st st' _ _ i _; rfl
  | succ f ih =>
    intro B st st' hB hag i hi
    cases hd : st[i]? with
    | none => simp only [toTree, hag i hi, hd]
    | some d =>
      have hcongr : toTreeList (toTree f st') d.children =
          toTreeList (toTree f st) d.children := by
        apply toTreeList_congr
        intro c hc
        have hb := hB i hi c (by rw [childrenAt_eq st hd]; exact hc)
        exact ih B st st' hB hag c hb.2
      simp only [toTree, hag i hi, hd, hcongr]

/-- Extraction succeeds on an acyclic region given enough fuel. -/
theorem toTree_isSome : ∀ (fuel L : Nat) (st : Store),
    ChildrenIncBelow L st → L ≤ st.length →
    (∀ i, i < L → L - i ≤ fuel → (toTree fuel st i).isSome = true) ∧
    (∀ cs, (∀ c ∈ cs, c < L ∧ L - c ≤ fuel) →
      (toTreeList (toTree fuel st) cs).isSome = true) := by
  intro fuel
  induction fuel with
  | zero =>
    intro L st _ _
    constructor
    · intro i h1 h2; omega
    · intro cs h
      match cs with
      | [] => rfl
      | c :: cs =>
        have := h c (List.mem_cons_self c cs)
        omega
  | succ fuel ih =>
    intro L st hB hL
    obtain ⟨ih1, ih2⟩ := ih L st hB hL
    have h1 : ∀ i, i < L → L - i ≤ fuel + 1 → (toTree (fuel + 1) st i).isSome = true := by
      intro i hi hf
      have hlt : i < st.length := by omega
      obtain ⟨d, hd⟩ : ∃ d, st[i]? = some d := ⟨st[i], List.getElem?_eq_getElem hlt⟩
      simp only [toTree, hd]
      have hcs : ∀ c ∈ d.children, c < L ∧ L - c ≤ fuel := by
        intro c hc
        have := hB i hi c (by rw [childrenAt_eq st hd]; exact hc)
        omega
      obtain ⟨ts, hts⟩ := Option.isSome_iff_exists.mp (ih2 d.children hcs)
      simp only [hts]
      rfl
    refine ⟨h1, ?_⟩
    intro cs hcs
    induction cs with
    | nil => rfl
    | cons c cs ihc =>
      have hc := hcs c (List.mem_cons_self c cs)
      obtain ⟨t, ht⟩ := Option.isSome_iff_exists.mp (h1 c hc.1 hc.2)
      obtain ⟨ts, hts⟩ := Option.isSome_iff_exists.mp
        (ihc (fun c' hc' => hcs c' (List.mem_cons_of_mem c hc')))
      simp only [toTreeList, ht, hts]
      rfl

/-- Extraction reproduces the entry's own fields. -/
theorem toTree_segs {f : Nat} {st : Store} {i : Nat} {t : Tree}
    (h : toTree f st i = some t) {d : NodeData} (hd : st[i]? = some d) :
    t.segs = d.segs ∧ t.comment = d.comment ∧ t.dirFlag = d.is_dir_spec := by
  match f with
  | 0 => exact Option.noConfusion h
  | f + 1 =>
    simp only [toTree, hd] at h
    cases hts : toTreeList (toTree f st) d.children with
    | none => rw [hts] at h; exact Option.noConfusion h
    | some ts =>
      rw [hts] at h
      obtain rfl : Tree.node d.segs d.comment d.is_dir_spec ts = t := by simpa using h
      exact ⟨rfl, rfl, rfl⟩

/-- The extraction of a `rebase` result is the `RebasedAt` image of the
extraction of the source node: rebase preserves annotation, directory flag
and recursive structure while recomputing every descendant's path. -/
theorem rebase_toTree : ∀ fuel : Nat,
    (∀ st i p st' n, ChildrenIncFull st → rebase fuel st i p = some (st', n) →
      ∀ f t, toTree f st i = some t →
        ∃ t', toTree f st' n = some t' ∧ RebasedAt p t t') ∧
    (∀ cs st nid st' p, ChildrenIncFull st → nid < st.length →
      ChildrenIncBelow nid st →
      (∀ dn, st[nid]? = some dn → dn.segs = p) →
      (∀ c ∈ cs, c < nid) →
      rebChildren (rebase fuel) st nid cs = some st' →
      ∀ f ts, toTreeList (toTree f st) cs = some ts →
        ∀ dn, st[nid]? = some dn →
          ∃ tail ts',
            st'[nid]? = some ⟨dn.segs, dn.comment, dn.is_dir_spec, dn.children ++ tail⟩ ∧
            toTreeList (toTree f st') tail = some ts' ∧ RebasedKids p ts ts') := by
  intro fuel
  induction fuel with
  | zero =>
    constructor
    · intro st i p st' n _ h
      simp [rebase] at h
    · intro cs st nid st' p _ _ _ _ _ h f ts hts dn hdn
      match cs with
      | [] =>
        simp only [rebChildren, Option.some.injEq] at h
        subst h
        obtain rfl : ts = [] := by
          simpa [toTreeList] using hts.symm
        exact ⟨[], [], by simpa using hdn, rfl, RebasedKids.nil p⟩
      | c :: cs =>
        simp only [rebChildren] at h
        cases hpd : st[nid]? with
        | none => simp [hpd] at h
        | some pd =>
          cases hcd : st[c]? with
          | none => simp [hpd, hcd] at h
          | some cd => simp [hpd, hcd, rebase] at h
  | succ fuel ih =>
    have hR : ∀ st i p st' n, ChildrenIncFull st →
        rebase (fuel + 1) st i p = some (st', n) →
        ∀ f t, toTree f st i = some t →
          ∃ t', toTree f st' n = some t' ∧ RebasedAt p t t' := by
      intro st i p st' n hInc h f t hext
      rw [rebase] at h
      cases hd : st[i]? with
      | none => simp only [hd] at h; exact Option.noConfusion h
      | some d =>
        simp only [hd] at h
        cases hc : rebChildren (rebase fuel)
            (st ++ [⟨p, d.comment, d.is_dir_spec, []⟩]) st.length d.children with
        | none => simp only [hc] at h; exact Option.noConfusion h
        | some st2 =>
          simp only [hc, Option.some.injEq, Prod.mk.injEq] at h
          obtain ⟨h1, h2⟩ := h
          subst h1
          subst h2
          match f with
          | 0 => exact Option.noConfusion hext
          | f + 1 =>
            simp only [toTree, hd] at hext
            cases hts : toTreeList (toTree f st) d.children with
            | none => rw [hts] at hext; exact Option.noConfusion hext
            | some ts =>
              rw [hts] at hext
              obtain rfl : Tree.node d.segs d.comment d.is_dir_spec ts = t := by
                simpa using hext
              have hi : i < st.length := lt_length_of_getElem?_some hd
              have hag : ∀ j, j < st.length →
                  (st ++ [(⟨p, d.comment, d.is_dir_spec, []⟩ : NodeData)])[j]? = st[j]? :=
                fun j hj => getElem?_append_left hj
              have hts1 : toTreeList
                  (toTree f (st ++ [(⟨p, d.comment, d.is_dir_spec, []⟩ : NodeData)]))
                  d.children = some ts := by
                rw [toTreeList_congr (fun c hc => ?_)]
                · exact hts
                · have hb := hInc i hi c (by rw [childrenAt_eq st hd]; exact hc)
                  exact toTree_agreeFrom f 0 st _ hInc
                    (fun j _ hj => hag j hj) c (Nat.zero_le c) hb.2
              have hnew : (st ++ [(⟨p, d.comment, d.is_dir_spec, []⟩ : NodeData)])[st.length]? =
                  some ⟨p, d.comment, d.is_dir_spec, []⟩ := List.getElem?_concat_length _ _
              obtain ⟨tail, ts', hnid', htail, hkids⟩ :=
                ih.2 d.children _ st.length st2 p
                  (childrenIncFull_append rfl hInc)
                  (by simp only [List.length_append, List.length_cons, List.length_nil]; omega)
                  (childrenIncBelow_of_agree hInc hag)
                  (fun dn hdn => by
                    rw [hnew] at hdn
                    obtain rfl : (⟨p, d.comment, d.is_dir_spec, []⟩ : NodeData) = dn := by
                      simpa using hdn
                    rfl)
                  (fun c hc => (hInc i hi c (by rw [childrenAt_eq st hd]; exact hc)).2)
                  hc f ts hts1 _ hnew
              refine ⟨Tree.node p d.comment d.is_dir_spec ts', ?_, ?_⟩
              · simp only [List.nil_append] at hnid'
                simp only [toTree, hnid', htail]
              · exact RebasedAt.node p d.segs d.comment d.is_dir_spec ts ts' hkids
    refine ⟨hR, ?_⟩
    intro cs
    induction cs with
    | nil =>
      intro st nid st' p _ _ _ _ _ h f ts hts dn hdn
      simp only [rebChildren, Option.some.injEq] at h
      subst h
      obtain rfl : ts = [] := by simpa [toTreeList] using hts.symm
      exact ⟨[], [], by simpa using hdn, rfl, RebasedKids.nil p⟩
    | cons c cs ihcs =>
      intro st nid st' p hInc hnid hBelow hsegs hlt h f ts hts dn hdn
      simp only [rebChildren] at h
      cases hpd : st[nid]? with
      | none => simp [hpd] at h
      | some pd =>
        cases hcd : st[c]? with
        | none => simp [hpd, hcd] at h
        | some cd =>
          simp only [hpd, hcd] at h
          cases hreb : rebase (fuel + 1) st c (pd.segs ++ segsOf (nameOf cd.segs)) with
          | none => simp [hreb] at h
          | some pr =>
            obtain ⟨stA, newCid⟩ := pr
            simp only [hreb] at h
            obtain rfl : pd = dn := by
              rw [hpd] at hdn; simpa using hdn
            -- destructure the extraction of the head child
            simp only [toTreeList] at hts
            cases ht0 : toTree f st c with
            | none => rw [ht0] at hts; exact Option.noConfusion hts
            | some t0 =>
              rw [ht0] at hts
              cases hts0 : toTreeList (toTree f st) cs with
              | none => rw [hts0] at hts; exact Option.noConfusion hts
              | some ts0 =>
                rw [hts0] at hts
                obtain rfl : t0 :: ts0 = ts := by simpa using hts
                -- facts about the head rebase
                obtain ⟨hn1, hlenA, hframeA, _⟩ :=
                  (rebase_frame (fuel + 1)).1 st c _ stA newCid hreb
                obtain ⟨hIncA, _⟩ := (rebase_preserves (fuel + 1)).1 st c _ stA newCid hreb hInc
                obtain ⟨t0', ht0A, hrebAt⟩ := hR st c _ stA newCid hInc hreb f t0 ht0
                have hnidA : stA[nid]? = some pd := by
                  rw [hframeA nid hnid, hpd]
                rw [add_child_some newCid hnidA] at h
                have hlenB : (stA.set nid
                    (⟨pd.segs, pd.comment, pd.is_dir_spec, pd.children ++ [newCid]⟩ :
                      NodeData)).length = stA.length := List.length_set stA nid _
                have hsetB : (stA.set nid
                    (⟨pd.segs, pd.comment, pd.is_dir_spec, pd.children ++ [newCid]⟩ :
                      NodeData))[nid]? =
                    some ⟨pd.segs, pd.comment, pd.is_dir_spec, pd.children ++ [newCid]⟩ :=
                  List.getElem?_set_self (by omega)
                have hagB : ∀ j, j < nid →
                    (stA.set nid
                      (⟨pd.segs, pd.comment, pd.is_dir_spec, pd.children ++ [newCid]⟩ :
                        NodeData))[j]? = st[j]? := by
                  intro j hj
                  rw [List.getElem?_set_ne (show nid ≠ j by omega), hframeA j (by omega)]
                have hIncB : ChildrenIncFull (stA.set nid
                    (⟨pd.segs, pd.comment, pd.is_dir_spec, pd.children ++ [newCid]⟩ :
                      NodeData)) := by
                  apply childrenIncFull_set hIncA hnidA
                  intro c' hc'
                  rcases List.mem_append.mp hc' with hc' | hc'
                  · have := hInc nid hnid c' (by rw [childrenAt_eq st hpd]; exact hc')
                    omega
                  · simp only [List.mem_singleton] at hc'
                    subst hc'
                    omega
                have htsB : toTreeList (toTree f (stA.set nid
                    (⟨pd.segs, pd.comment, pd.is_dir_spec, pd.children ++ [newCid]⟩ :
                      NodeData))) cs = some ts0 := by
                  rw [toTreeList_congr (fun c' hc' => toTree_agreeBelow f nid st _ hBelow hagB
                    c' (hlt c' (List.mem_cons_of_mem c hc')))]
                  exact hts0
                obtain ⟨tail', ts0', hnid', htail', hkids'⟩ :=
                  ihcs _ nid st' p hIncB (by omega)
                    (childrenIncBelow_of_agree hBelow hagB)
                    (fun dn' hdn' => by
                      rw [hsetB] at hdn'
                      obtain rfl : (⟨pd.segs, pd.comment, pd.is_dir_spec,
                          pd.children ++ [newCid]⟩ : NodeData) = dn' := by simpa using hdn'
                      exact hsegs pd hpd)
                    (fun c' hc' => hlt c' (List.mem_cons_of_mem c hc'))
                    h f ts0 htsB _ hsetB
                -- transport the head extraction to the final store
                obtain ⟨hlenC, hframeC, _⟩ := (rebase_frame (fuel + 1)).2 cs _ nid st' h
                  (by omega)
                have hA : newCid < stA.length := by omega
                have ht0B : toTree f (stA.set nid
                    (⟨pd.segs, pd.comment, pd.is_dir_spec, pd.children ++ [newCid]⟩ :
                      NodeData)) newCid = some t0' := by
                  rw [toTree_agreeFrom f (nid + 1) stA _ hIncA
                    (fun j hj hjl => List.getElem?_set_ne (show nid ≠ j by omega))
                    newCid (by omega) hA]
                  exact ht0A
                have ht0' : toTree f st' newCid = some t0' := by
                  rw [toTree_agreeFrom f (nid + 1) _ st' hIncB
                    (fun j hj hjl => hframeC j (by omega) (by omega))
                    newCid (by omega) (by omega)]
                  exact ht0B
                have hsegs0 := toTree_segs ht0 hcd
                refine ⟨newCid :: tail', t0' :: ts0', ?_, ?_, ?_⟩
                · rw [hnid']
                  simp
                · simp only [toTreeList, ht0', htail']
                · refine RebasedKids.cons p t0 t0' ts0 ts0' ?_ hkids'
                  have hname : Tree.name t0 = nameOf cd.segs := by
                    unfold Tree.name
                    rw [hsegs0.1]
                  rw [hname]
                  rw [hsegs pd hpd] at hrebAt
                  exact hrebAt

theorem rebasedKids_length {p : List Str} : ∀ (cs cs' : List Tree),
    RebasedKids p cs cs' → cs.length = cs'.length := by
  intro cs
  induction cs with
  | nil =>
    intro cs' h
    cases h
    rfl
  | cons t ts ih =>
    intro cs' h
    cases h with
    | cons q u u' v v' hat hk =>
      simp only [List.length_cons, ih v' hk]

/-- Claim C3: `rebase` is structure-preserving: the rebased node keeps the
source node's annotation, directory flag and number of children, and
recursively every child is the rebase of the corresponding source child at
the path recomputed relative to the new root (`RebasedAt`). -/
theorem rebase_structure_preserving (fuel f : Nat) (st st' : Store) (i n : Nat)
    (p : List Str) (t : Tree) (hInc : ChildrenIncFull st)
    (hreb : rebase fuel st i p = some (st', n)) (hext : toTree f st i = some t) :
    ∃ t', toTree f st' n = some t' ∧ RebasedAt p t t' ∧
      t'.comment = t.comment ∧ t'.dirFlag = t.dirFlag ∧
      t'.children.length = t.children.length := by
  obtain ⟨t', h1, h2⟩ := (rebase_toTree fuel).1 st i p st' n hInc hreb f t hext
  refine ⟨t', h1, h2, ?_, ?_, ?_⟩
  · cases h2; rfl
  · cases h2; rfl
  · cases h2 with
    | node q s c d cs cs' hk =>
      simp only [Tree.children]
      exact (rebasedKids_length cs cs' hk).symm

/-- Witness for `rebase_structure_preserving` on a two-node store. -/
theorem rebase_structure_preserving_w :
    ∃ t', toTree 2
        [⟨[['a']], [], true, [1]⟩, ⟨[['a'], ['b']], ['c'], false, []⟩,
         ⟨[['z']], [], true, [3]⟩, ⟨[['z'], ['b']], ['c'], false, []⟩] 2 = some t' ∧
      RebasedAt [['z']]
        (Tree.node [['a']] [] true [Tree.node [['a'], ['b']] ['c'] false []]) t' ∧
      t'.comment = (Tree.node [['a']] [] true
        [Tree.node [['a'], ['b']] ['c'] false []]).comment ∧
      t'.dirFlag = (Tree.node [['a']] [] true
        [Tree.node [['a'], ['b']] ['c'] false []]).dirFlag ∧
      t'.children.length = (Tree.node [['a']] [] true
        [Tree.node [['a'], ['b']] ['c'] false []]).children.length :=
  rebase_structure_preserving 2 2
    [⟨[['a']], [], true, [1]⟩, ⟨[['a'], ['b']], ['c'], false, []⟩]
    [⟨[['a']], [], true, [1]⟩, ⟨[['a'], ['b']], ['c'], false, []⟩,
     ⟨[['z']], [], true, [3]⟩, ⟨[['z'], ['b']], ['c'], false, []⟩]
    0 2 [['z']]
    (Tree.node [['a']] [] true [Tree.node [['a'], ['b']] ['c'] false []])
    (by decide) (by rfl) (by rfl)

/-- Claim C6: `rebase` and `reparent` never mutate their input: after a
successful call every entry of the original store is unchanged (path,
annotation, directory flag and child list), and hence the extracted tree of
every original node is unchanged — the original tree remains valid and
usable. -/
theorem rebase_reparent_no_mutation :
    (∀ fuel st i p st' n, rebase fuel st i p = some (st', n) →
      (∀ j, j < st.length → st'[j]? = st[j]?) ∧
      (ChildrenIncFull st → ∀ f j, j < st.length → toTree f st' j = toTree f st j)) ∧
    (∀ fuel st i pid st' n, reparent fuel st i pid = some (st', n) →
      (∀ j, j < st.length → st'[j]? = st[j]?) ∧
      (ChildrenIncFull st → ∀ f j, j < st.length → toTree f st' j = toTree f st j)) := by
  have h1 : ∀ fuel st i p st' n, rebase fuel st i p = some (st', n) →
      (∀ j, j < st.length → st'[j]? = st[j]?) ∧
      (ChildrenIncFull st → ∀ f j, j < st.length → toTree f st' j = toTree f st j) := by
    intro fuel st i p st' n h
    obtain ⟨_, _, hframe, _⟩ := (rebase_frame fuel).1 st i p st' n h
    refine ⟨hframe, fun hInc f j hj => ?_⟩
    exact toTree_agreeFrom f 0 st st' hInc (fun j' _ hj' => hframe j' hj') j
      (Nat.zero_le j) hj
  refine ⟨h1, ?_⟩
  intro fuel st i pid st' n h
  unfold reparent at h
  cases hpd : st[pid]? with
  | none => simp only [hpd] at h; exact Option.noConfusion h
  | some pd =>
    cases hd : st[i]? with
    | none => simp only [hpd, hd] at h; exact Option.noConfusion h
    | some d =>
      simp only [hpd, hd] at h
      exact h1 fuel st i _ st' n h

/-- Witness for `rebase_reparent_no_mutation`: the original child entry is
untouched by a concrete rebase. -/
theorem rebase_reparent_no_mutation_w :
    ([⟨[['a']], [], true, [1]⟩, ⟨[['a'], ['b']], ['c'], false, []⟩,
      ⟨[['z']], [], true, [3]⟩, ⟨[['z'], ['b']], ['c'], false, []⟩] : Store)[1]? =
      ([⟨[['a']], [], true, [1]⟩, ⟨[['a'], ['b']], ['c'], false, []⟩] : Store)[1]? :=
  (rebase_reparent_no_mutation.1 2
    [⟨[['a']], [], true, [1]⟩, ⟨[['a'], ['b']], ['c'], false, []⟩]
    0 [['z']]
    [⟨[['a']], [], true, [1]⟩, ⟨[['a'], ['b']], ['c'], false, []⟩,
     ⟨[['z']], [], true, [3]⟩, ⟨[['z'], ['b']], ['c'], false, []⟩]
    2 (by rfl)).1 1 (by decide)

/-! ### The parser maintains its state invariant -/

theorem dirAt_of_agree {st st' : Store} {j : Nat} (h : st'[j]? = st[j]?) :
    dirAt st' j = dirAt st j := by
  unfold dirAt
  rw [h]

theorem pushAt_mem {stack : List Nat} {level nid x : Nat}
    (h : x ∈ pushAt stack level nid) : x ∈ stack ∨ x = nid := by
  unfold pushAt at h
  split at h
  · rcases List.mem_append.mp h with h | h
    · exact Or.inl h
    · exact Or.inr (by simpa using h)
  · exact List.mem_or_eq_of_mem_set h

theorem setChildren_eq {st : Store} {i : Nat} {d : NodeData} (cs : List Nat)
    (h : st[i]? = some d) :
    setChildren st i cs = st.set i ⟨d.segs, d.comment, d.is_dir_spec, cs⟩ := by
  simp [setChildren, h]

/-- Shape of the parser state after a level-0 line creates a new root. -/
theorem pstate_new_root_inv {store : Store} {roots stack stack1 : List Nat}
    {nd : NodeData}
    (hInc : ChildrenIncFull store)
    (hstack : ∀ s ∈ stack, s < store.length ∧ dirAt store s = true)
    (hroots : ∀ r ∈ roots, r < store.length)
    (hleaf : FileLeaves store)
    (hndc : nd.children = [])
    (hstack1 : ∀ s ∈ stack1, s ∈ stack ∨ s = store.length)
    (hdir : store.length ∈ stack1 → nd.is_dir_spec = true) :
    PInv ⟨store ++ [nd], roots ++ [store.length], stack1⟩ := by
  refine ⟨childrenIncFull_append hndc hInc, ?_, ?_, fileLeaves_append (Or.inl hndc) hleaf⟩
  · intro s hs
    simp only [List.length_append, List.length_cons, List.length_nil]
    rcases hstack1 s hs with hs' | hs'
    · obtain ⟨h1, h2⟩ := hstack s hs'
      refine ⟨by omega, ?_⟩
      rw [dirAt_of_agree (getElem?_append_left h1)]
      exact h2
    · subst hs'
      refine ⟨by omega, ?_⟩
      simp only [dirAt, List.getElem?_concat_length]
      exact hdir hs
  · intro r hr
    simp only [List.length_append, List.length_cons, List.length_nil]
    rcases List.mem_append.mp hr with hr | hr
    · have := hroots r hr; omega
    · simp only [List.mem_singleton] at hr; omega

/-- Shape of the parser state after a nested line is attached to a parent
from the stack. -/
theorem pstate_attach_inv {store : Store} {roots stack stack1 : List Nat}
    {pid : Nat} {pd nd : NodeData}
    (hInc : ChildrenIncFull store)
    (hstack : ∀ s ∈ stack, s < store.length ∧ dirAt store s = true)
    (hroots : ∀ r ∈ roots, r < store.length)
    (hleaf : FileLeaves store)
    (hpd : store[pid]? = some pd)
    (hpdflag : pd.is_dir_spec = true)
    (hndc : nd.children = [])
    (hstack1 : ∀ s ∈ stack1, s ∈ stack ∨ s = store.length)
    (hdir : store.length ∈ stack1 → nd.is_dir_spec = true) :
    PInv ⟨(store ++ [nd]).set pid
        ⟨pd.segs, pd.comment, pd.is_dir_spec, pd.children ++ [store.length]⟩,
      roots, stack1⟩ := by
  have hpl : pid < store.length := lt_length_of_getElem?_some hpd
  have happ : (store ++ [nd])[pid]? = some pd := by
    rw [getElem?_append_left hpl]; exact hpd
  have hIncApp : ChildrenIncFull (store ++ [nd]) := childrenIncFull_append hndc hInc
  refine ⟨?_, ?_, ?_, ?_⟩
  · apply childrenIncFull_set hIncApp happ
    intro c hc
    simp only [List.length_append, List.length_cons, List.length_nil]
    rcases List.mem_append.mp hc with hc | hc
    · have := hInc pid hpl c (by rw [childrenAt_eq store hpd]; exact hc)
      omega
    · simp only [List.mem_singleton] at hc
      omega
  · intro s hs
    rw [List.length_set]
    simp only [List.length_append, List.length_cons, List.length_nil]
    rcases hstack1 s hs with hs' | hs'
    · obtain ⟨h1, h2⟩ := hstack s hs'
      refine ⟨by omega, ?_⟩
      by_cases hse : s = pid
      · subst hse
        unfold dirAt
        rw [List.getElem?_set_self (by
          simp only [List.length_append, List.length_cons, List.length_nil]; omega)]
        rw [dirAt_eq store hpd] at h2
        simpa using h2
      · unfold dirAt
        rw [List.getElem?_set_ne (fun hh => hse hh.symm), getElem?_append_left h1]
        unfold dirAt at h2
        exact h2
    · subst hs'
      refine ⟨by omega, ?_⟩
      unfold dirAt
      rw [List.getElem?_set_ne (show pid ≠ store.length by omega),
        List.getElem?_concat_length]
      exact hdir hs
  · intro r hr
    rw [List.length_set]
    simp only [List.length_append, List.length_cons, List.length_nil]
    have := hroots r hr
    omega
  · apply fileLeaves_set (fileLeaves_append (Or.inl hndc) hleaf) happ hpdflag

theorem parseStep_inv {isz : Nat} {ps ps' : PState} {line : Str}
    (h : parseStep isz ps line = some ps') (hinv : PInv ps) : PInv ps' := by
  obtain ⟨hInc, hstack, hroots, hleaf⟩ := hinv
  unfold parseStep at h
  by_cases hname : lineNamePart line = []
  · rw [if_pos hname] at h
    obtain rfl : ps = ps' := by simpa using h
    exact ⟨hInc, hstack, hroots, hleaf⟩
  rw [if_neg hname] at h
  by_cases hlvl : lineLevel isz line = 0
  · rw [if_pos hlvl] at h
    simp only [Option.some.injEq] at h
    subst h
    apply pstate_new_root_inv hInc hstack hroots hleaf rfl
    · intro s hs
      by_cases hdir : ((lineNamePart line).getLast? == some '/') = true
      · rw [if_pos hdir] at hs
        exact pushAt_mem hs
      · rw [if_neg hdir] at hs
        exact Or.inl hs
    · intro hmem
      by_cases hdir : ((lineNamePart line).getLast? == some '/') = true
      · exact hdir
      · rw [if_neg hdir] at hmem
        have := (hstack _ hmem).1
        omega
  rw [if_neg hlvl] at h
  cases hpid : (ps.stack.take (lineLevel isz line))[lineLevel isz line - 1]? with
  | none => simp only [hpid] at h; exact Option.noConfusion h
  | some pid =>
    simp only [hpid] at h
    have hpidmem : pid ∈ ps.stack :=
      List.take_subset _ _ (List.getElem?_mem hpid)
    obtain ⟨hpl, hpdir⟩ := hstack pid hpidmem
    cases hpd : ps.store[pid]? with
    | none => simp only [hpd] at h; exact Option.noConfusion h
    | some pd =>
      simp only [hpd] at h
      have hpdflag : pd.is_dir_spec = true := by
        rw [dirAt_eq ps.store hpd] at hpdir
        exact hpdir
      have happ : (ps.store ++
          [(⟨pd.segs ++ segsOf (if (lineNamePart line).getLast? = some '/' then
              (lineNamePart line).dropLast else lineNamePart line),
            lineComment line, (lineNamePart line).getLast? == some '/', []⟩ :
            NodeData)])[pid]? = some pd := by
        rw [getElem?_append_left hpl]
        exact hpd
      rw [add_child_some ps.store.length happ] at h
      simp only [Option.some.injEq] at h
      subst h
      apply pstate_attach_inv hInc hstack hroots hleaf hpd hpdflag rfl
      · intro s hs
        by_cases hdir : ((lineNamePart line).getLast? == some '/') = true
        · rw [if_pos hdir] at hs
          rcases pushAt_mem hs with hs' | hs'
          · exact Or.inl (List.take_subset _ _ hs')
          · exact Or.inr hs'
        · rw [if_neg hdir] at hs
          exact Or.inl (List.take_subset _ _ hs)
      · intro hmem
        by_cases hdir : ((lineNamePart line).getLast? == some '/') = true
        · exact hdir
        · rw [if_neg hdir] at hmem
          have := (hstack _ (List.take_subset _ _ hmem)).1
          omega

theorem parseLines_inv {isz : Nat} : ∀ {lines : List Str} {ps ps' : PState},
    parseLines isz ps lines = some ps' → PInv ps → PInv ps' := by
  intro lines
  induction lines with
  | nil =>
    intro ps ps' h hinv
    obtain rfl : ps = ps' := by simpa [parseLines] using h
    exact hinv
  | cons l ls ih =>
    intro ps ps' h hinv
    simp only [parseLines] at h
    cases hstep : parseStep isz ps l with
    | none => simp only [hstep] at h; exact Option.noConfusion h
    | some ps1 =>
      simp only [hstep] at h
      exact ih h (parseStep_inv hstep hinv)

theorem parsedState_inv {text : Str} {isz : Nat} {ps : PState}
    (h : parsedState text isz = some ps) : PInv ps := by
  refine parseLines_inv h ⟨?_, ?_, ?_, ?_⟩
  · intro j hj c hc
    simp at hj
  · intro s hs
    simp at hs
  · intro r hr
    simp at hr
  · intro j hj
    simp at hj

/-! ### The reparenting loop of the assembler -/

theorem reparentAll_spec : ∀ (rs : List Nat) (st : Store) (pid : Nat) (st2 : Store)
    (cids : List Nat),
    reparentAll st pid rs = some (st2, cids) →
    ChildrenIncFull st →
    pid < st.length →
    st.length ≤ st2.length ∧
    (∀ j, j < st.length → st2[j]? = st[j]?) ∧
    ChildrenIncFull st2 ∧
    (FileLeaves st → FileLeaves st2) ∧
    cids.length = rs.length ∧
    (∀ cid ∈ cids, st.length ≤ cid ∧ cid < st2.length) ∧
    (∀ dp, st[pid]? = some dp →
      ChildrenIncBelow pid st →
      (∀ r ∈ rs, r < pid) →
      ∀ f ts, toTreeList (toTree f st) rs = some ts →
        ∃ ts', toTreeList (toTree f st2) cids = some ts' ∧
          RebasedKids dp.segs ts ts') := by
  intro rs
  induction rs with
  | nil =>
    intro st pid st2 cids h hInc hpid
    simp only [reparentAll, Option.some.injEq, Prod.mk.injEq] at h
    obtain ⟨rfl, rfl⟩ := h
    refine ⟨Nat.le_refl _, fun j _ => rfl, hInc, fun hf => hf, rfl, ?_, ?_⟩
    · intro cid hcid
      exact absurd hcid (List.not_mem_nil cid)
    · intro dp hdp hB hlt f ts hts
      obtain rfl : ts = [] := by simpa [toTreeList] using hts.symm
      exact ⟨[], rfl, RebasedKids.nil dp.segs⟩
  | cons r rs ih =>
    intro st pid st2 cids h hInc hpid
    simp only [reparentAll] at h
    cases hrep : reparent st.length st r pid with
    | none => simp only [hrep] at h; exact Option.noConfusion h
    | some pr =>
      obtain ⟨stA, cid0⟩ := pr
      simp only [hrep] at h
      cases hall : reparentAll stA pid rs with
      | none => simp only [hall] at h; exact Option.noConfusion h
      | some pr2 =>
        obtain ⟨stB, cids0⟩ := pr2
        simp only [hall, Option.some.injEq, Prod.mk.injEq] at h
        obtain ⟨rfl, rfl⟩ := h
        unfold reparent at hrep
        cases hdp0 : st[pid]? with
        | none => simp only [hdp0] at hrep; exact Option.noConfusion hrep
        | some dp0 =>
          cases hdr : st[r]? with
          | none => simp only [hdp0, hdr] at hrep; exact Option.noConfusion hrep
          | some dr =>
            simp only [hdp0, hdr] at hrep
            obtain ⟨hn0, hlenA, hframeA, _⟩ :=
              (rebase_frame st.length).1 st r _ stA cid0 hrep
            obtain ⟨hIncA, hLeafA⟩ :=
              (rebase_preserves st.length).1 st r _ stA cid0 hrep hInc
            obtain ⟨hlenB, hframeB, hIncB, hLeafB, hclen, hcbound, hext⟩ :=
              ih stA pid stB cids0 hall hIncA (by omega)
            refine ⟨by omega, ?_, hIncB, ?_, ?_, ?_, ?_⟩
            · intro j hj
              rw [hframeB j (by omega), hframeA j hj]
            · intro hf
              exact hLeafB (hLeafA hf)
            · simp [hclen]
            · intro cid hcid
              rcases List.mem_cons.mp hcid with hcid | hcid
              · subst hcid; omega
              · have := hcbound cid hcid; omega
            · intro dp hdp hB hlt f ts hts
              obtain rfl : dp0 = dp := by simpa using hdp
              simp only [toTreeList] at hts
              cases ht0 : toTree f st r with
              | none => rw [ht0] at hts; exact Option.noConfusion hts
              | some t0 =>
                rw [ht0] at hts
                cases hts0 : toTreeList (toTree f st) rs with
                | none => rw [hts0] at hts; exact Option.noConfusion hts
                | some ts0 =>
                  rw [hts0] at hts
                  obtain rfl : t0 :: ts0 = ts := by simpa using hts
                  obtain ⟨t0', ht0A, hrebAt⟩ :=
                    (rebase_toTree st.length).1 st r _ stA cid0 hInc hrep f t0 ht0
                  have hdpA : stA[pid]? = some dp0 := by
                    rw [hframeA pid hpid, hdp0]
                  have htsA : toTreeList (toTree f stA) rs = some ts0 := by
                    rw [toTreeList_congr (fun r' hr' => toTree_agreeFrom f 0 st stA hInc
                      (fun j _ hj => hframeA j hj) r' (Nat.zero_le r')
                      (by have := hlt r' (List.mem_cons_of_mem r hr'); omega))]
                    exact hts0
                  obtain ⟨ts0', htsB, hkids⟩ := hext dp0 hdpA
                    (childrenIncBelow_of_agree hB (fun j hj => hframeA j (by omega)))
                    (fun r' hr' => hlt r' (List.mem_cons_of_mem r hr'))
                    f ts0 htsA
                  have ht0B : toTree f stB cid0 = some t0' := by
                    rw [toTree_agreeFrom f 0 stA stB hIncA
                      (fun j _ hj => hframeB j hj) cid0 (Nat.zero_le cid0) (by omega)]
                    exact ht0A
                  refine ⟨t0' :: ts0', ?_, ?_⟩
                  · simp only [toTreeList, ht0B, htsB]
                  · refine RebasedKids.cons dp0.segs t0 t0' ts0 ts0' ?_ hkids
                    have hname : Tree.name t0 = nameOf dr.segs := by
                      unfold Tree.name
                      rw [(toTree_segs ht0 hdr).1]
                    rw [hname]
                    exact hrebAt

theorem reparentAll_isSome : ∀ (rs : List Nat) (st : Store) (pid : Nat),
    ChildrenIncBelow pid st → pid < st.length → (∀ r ∈ rs, r < pid) →
    (reparentAll st pid rs).isSome = true := by
  intro rs
  induction rs with
  | nil => intro st pid _ _ _; rfl
  | cons r rs ih =>
    intro st pid hB hpid hlt
    have hr := hlt r (List.mem_cons_self r rs)
    obtain ⟨dp, hdp⟩ : ∃ dp, st[pid]? = some dp := ⟨st[pid], List.getElem?_eq_getElem hpid⟩
    have hrlen : r < st.length := by omega
    obtain ⟨dr, hdr⟩ : ∃ dr, st[r]? = some dr := ⟨st[r], List.getElem?_eq_getElem hrlen⟩
    have hreb := (rebase_isSome st.length pid).1 st r (dp.segs ++ segsOf (nameOf dr.segs))
      hB (by omega) hr (by omega)
    obtain ⟨pr, hpr⟩ := Option.isSome_iff_exists.mp hreb
    obtain ⟨stA, cid0⟩ := pr
    simp only [reparentAll, reparent, hdp, hdr, hpr]
    obtain ⟨_, hlenA, hframeA, _⟩ := (rebase_frame st.length).1 st r _ stA cid0 hpr
    have hrest := ih stA pid
      (childrenIncBelow_of_agree hB (fun j hj => hframeA j (by omega)))
      (by omega) (fun r' hr' => hlt r' (List.mem_cons_of_mem r hr'))
    obtain ⟨pr2, hpr2⟩ := Option.isSome_iff_exists.mp hrest
    obtain ⟨stB, cids0⟩ := pr2
    simp only [hpr2]
    rfl

/-- The synthetic-wrapper branch of `from_tree` keeps files leaves. -/
theorem wrapper_leaves {store : Store} {topSegs : List Str} {st2 : Store}
    {cids : List Nat} {rs : List Nat}
    (hInc : ChildrenIncFull store) (hleaf : FileLeaves store)
    (hall : reparentAll (store ++ [⟨topSegs, [], true, []⟩]) store.length rs =
      some (st2, cids)) :
    FileLeaves (setChildren st2 store.length cids) := by
  have hlen1 : store.length < (store ++ [(⟨topSegs, [], true, []⟩ : NodeData)]).length := by
    simp only [List.length_append, List.length_cons, List.length_nil]; omega
  obtain ⟨hlenB, hframeB, hIncB, hLeafB, _, _, _⟩ :=
    reparentAll_spec rs _ store.length st2 cids hall
      (childrenIncFull_append rfl hInc) hlen1
  have htop : st2[store.length]? = some ⟨topSegs, [], true, []⟩ := by
    rw [hframeB store.length hlen1, List.getElem?_concat_length]
  rw [setChildren_eq cids htop]
  exact fileLeaves_set (hLeafB (fileLeaves_append (Or.inr rfl) hleaf)) htop rfl

/-- Claim C9: parser invariant — every node the parser attaches as a child
has a directory-flagged parent, so in every store returned by `from_tree`
a node with `is_dir_spec = false` has an empty child list. -/
theorem parser_files_are_leaves (text : Str) (root_path parent_path : Option Str)
    (isz : Nat) (st : Store) (r : Nat)
    (h : from_tree text root_path parent_path isz = some (st, r)) :
    FileLeaves st := by
  unfold from_tree at h
  cases hps : parsedState text isz with
  | none => simp only [hps] at h; exact Option.noConfusion h
  | some ps =>
    simp only [hps] at h
    obtain ⟨hInc, hstack, hroots, hleaf⟩ := parsedState_inv hps
    rcases hrs : ps.roots with _ | ⟨r0, rs⟩
    · rw [hrs] at h
      simp only [reparentAll, Option.some.injEq, Prod.mk.injEq] at h
      obtain ⟨rfl, rfl⟩ := h
      have hall : reparentAll (ps.store ++
          [(⟨(match Option.map segsOf parent_path with
              | some p => p
              | none =>
                (match Option.map segsOf root_path with
                | some p => p
                | none => segsOf ('.' :: []))), [], true, []⟩ : NodeData)])
          ps.store.length [] =
          some (ps.store ++
          [(⟨(match Option.map segsOf parent_path with
              | some p => p
              | none =>
                (match Option.map segsOf root_path with
                | some p => p
                | none => segsOf ('.' :: []))), [], true, []⟩ : NodeData)], []) := rfl
      exact wrapper_leaves hInc hleaf hall
    rcases rs with _ | ⟨r1, rest⟩
    · -- exactly one root
      rw [hrs] at h
      have hr0 : r0 < ps.store.length := hroots r0 (by rw [hrs]; simp)
      cases hpp : parent_path with
      | some pstr =>
        simp only [hpp, Option.map_some'] at h
        cases hrep : reparent (ps.store ++ [(⟨segsOf pstr, [], true, []⟩ : NodeData)]).length
            (ps.store ++ [⟨segsOf pstr, [], true, []⟩]) r0 ps.store.length with
        | none => simp only [hrep] at h; exact Option.noConfusion h
        | some pr =>
          obtain ⟨st2, cid⟩ := pr
          simp only [hrep, Option.some.injEq, Prod.mk.injEq] at h
          obtain ⟨rfl, rfl⟩ := h
          have hlen1 : ps.store.length <
              (ps.store ++ [(⟨segsOf pstr, [], true, []⟩ : NodeData)]).length := by
            simp only [List.length_append, List.length_cons, List.length_nil]; omega
          unfold reparent at hrep
          have htop1 : (ps.store ++
              [(⟨segsOf pstr, [], true, []⟩ : NodeData)])[ps.store.length]? =
              some ⟨segsOf pstr, [], true, []⟩ :=
            List.getElem?_concat_length _ _
          obtain ⟨dr, hdr⟩ : ∃ dr,
              (ps.store ++ [(⟨segsOf pstr, [], true, []⟩ : NodeData)])[r0]? = some dr := by
            refine ⟨ps.store[r0], ?_⟩
            rw [getElem?_append_left hr0]
            exact List.getElem?_eq_getElem hr0
          simp only [htop1, hdr] at hrep
          obtain ⟨_, _, hframe2, _⟩ := (rebase_frame _).1 _ r0 _ st2 cid hrep
          obtain ⟨hInc2, hLeaf2⟩ := (rebase_preserves _).1 _ r0 _ st2 cid hrep
            (childrenIncFull_append rfl hInc)
          have htop2 : st2[ps.store.length]? = some ⟨segsOf pstr, [], true, []⟩ := by
            rw [hframe2 ps.store.length hlen1]
            exact htop1
          rw [setChildren_eq (cid :: []) htop2]
          exact fileLeaves_set (hLeaf2 (fileLeaves_append (Or.inr rfl) hleaf)) htop2 rfl
      | none =>
        simp only [hpp, Option.map_none'] at h
        cases hrp : root_path with
        | some rstr =>
          simp only [hrp, Option.map_some'] at h
          obtain ⟨hInc2, hLeaf2⟩ :=
            (rebase_preserves ps.store.length).1 ps.store r0 (segsOf rstr) st r h hInc
          exact hLeaf2 hleaf
        | none =>
          simp only [hrp, Option.map_none', Option.some.injEq, Prod.mk.injEq] at h
          obtain ⟨rfl, rfl⟩ := h
          exact hleaf
    · -- two or more roots
      rw [hrs] at h
      cases hall : reparentAll
          (ps.store ++ [⟨match parent_path.map segsOf with
            | some p => p
            | none => match root_path.map segsOf with
              | some p => p
              | none => segsOf ('.' :: [])
            , [], true, []⟩])
          ps.store.length (r0 :: r1 :: rest) with
      | none => simp only [hall] at h; exact Option.noConfusion h
      | some pr =>
        obtain ⟨st2, cids⟩ := pr
        simp only [hall, Option.some.injEq, Prod.mk.injEq] at h
        obtain ⟨rfl, rfl⟩ := h
        exact wrapper_leaves hInc hleaf hall

/-- Witness for `parser_files_are_leaves` on the parsed store of `"a/\n  b"`. -/
theorem parser_files_are_leaves_w :
    FileLeaves [⟨[['a']], [], true, [1]⟩, ⟨[['a'], ['b']], [], false, []⟩] :=
  parser_files_are_leaves ('a' :: '/' :: '\n' :: ' ' :: ' ' :: 'b' :: []) none none 2
    [⟨[['a']], [], true, [1]⟩, ⟨[['a'], ['b']], [], false, []⟩] 0 (by rfl)

/-- Claim C4: a spec text that parses to two or more root-level entries is
assembled into a synthetic wrapper: the returned node is directory-flagged,
has exactly one child per root entry in the original source order (each
child the reparenting of the corresponding root under the wrapper), and the
wrapper sits at `parent_path` when given, else at `root_path` when given,
else at the current-directory marker `"."`. -/
theorem multi_root_wrapper (text : Str) (root_path parent_path : Option Str)
    (isz : Nat) (ps : PState)
    (hps : parsedState text isz = some ps) (hge : 2 ≤ ps.roots.length) :
    ∃ st' top d, from_tree text root_path parent_path isz = some (st', top) ∧
      st'[top]? = some d ∧
      d.is_dir_spec = true ∧
      d.children.length = ps.roots.length ∧
      d.segs = (match parent_path with
        | some p => segsOf p
        | none =>
          match root_path with
          | some p => segsOf p
          | none => segsOf ('.' :: [])) ∧
      ∃ ts ts', toTreeList (toTree ps.store.length ps.store) ps.roots = some ts ∧
        toTreeList (toTree ps.store.length st') d.children = some ts' ∧
        RebasedKids d.segs ts ts' := by
  obtain ⟨hInc, hstack, hroots, hleaf⟩ := parsedState_inv hps
  have hTeq : (match Option.map segsOf parent_path with
      | some p => p
      | none =>
        (match Option.map segsOf root_path with
        | some p => p
        | none => segsOf ('.' :: []))) = (match parent_path with
      | some p => segsOf p
      | none =>
        match root_path with
        | some p => segsOf p
        | none => segsOf ('.' :: [])) := by
    cases parent_path <;> cases root_path <;> rfl
  obtain ⟨T, hT⟩ : ∃ T, (match Option.map segsOf parent_path with
      | some p => p
      | none =>
        (match Option.map segsOf root_path with
        | some p => p
        | none => segsOf ('.' :: []))) = T := ⟨_, rfl⟩
  rw [hT] at hTeq
  rcases hrs : ps.roots with _ | ⟨r0, rs0⟩
  · rw [hrs] at hge; simp at hge
  rcases rs0 with _ | ⟨r1, rest⟩
  · rw [hrs] at hge; simp at hge
  have hlen1 : ps.store.length <
      (ps.store ++ [(⟨T, [], true, []⟩ : NodeData)]).length := by
    simp only [List.length_append, List.length_cons, List.length_nil]; omega
  have hB1 : ChildrenIncBelow ps.store.length
      (ps.store ++ [(⟨T, [], true, []⟩ : NodeData)]) :=
    childrenIncBelow_of_agree hInc (fun j hj => getElem?_append_left hj)
  have hroots' : ∀ rr ∈ r0 :: r1 :: rest, rr < ps.store.length := by
    rw [← hrs]; exact hroots
  have hsome := reparentAll_isSome (r0 :: r1 :: rest)
    (ps.store ++ [(⟨T, [], true, []⟩ : NodeData)]) ps.store.length hB1 hlen1 hroots'
  cases hall : reparentAll (ps.store ++ [(⟨T, [], true, []⟩ : NodeData)])
      ps.store.length (r0 :: r1 :: rest) with
  | none => rw [hall] at hsome; exact absurd hsome (by simp)
  | some pr =>
    obtain ⟨st2, cids⟩ := pr
    obtain ⟨hlen2, hframe2, hInc2, hLeaf2, hclen, hcb, hext⟩ :=
      reparentAll_spec (r0 :: r1 :: rest) _ ps.store.length st2 cids hall
        (childrenIncFull_append rfl hInc) hlen1
    have htop1 : (ps.store ++
        [(⟨T, [], true, []⟩ : NodeData)])[ps.store.length]? =
        some ⟨T, [], true, []⟩ :=
      List.getElem?_concat_length _ _
    have htop2 : st2[ps.store.length]? = some ⟨T, [], true, []⟩ := by
      rw [hframe2 ps.store.length hlen1]
      exact htop1
    obtain ⟨ts, hts⟩ : ∃ ts,
        toTreeList (toTree ps.store.length ps.store) (r0 :: r1 :: rest) = some ts := by
      apply Option.isSome_iff_exists.mp
      exact (toTree_isSome ps.store.length ps.store.length ps.store hInc
        (Nat.le_refl _)).2 (r0 :: r1 :: rest)
        (fun c hc => ⟨hroots' c hc, by omega⟩)
    have hts1 : toTreeList (toTree ps.store.length
        (ps.store ++ [(⟨T, [], true, []⟩ : NodeData)])) (r0 :: r1 :: rest) = some ts := by
      rw [toTreeList_congr (fun c hc => toTree_agreeFrom ps.store.length 0 ps.store _ hInc
        (fun j _ hj => getElem?_append_left hj) c (Nat.zero_le c) (hroots' c hc))]
      exact hts
    obtain ⟨ts', hts2, hkids⟩ :=
      hext ⟨T, [], true, []⟩ htop1 hB1 hroots' ps.store.length ts hts1
    have hpidlt : ps.store.length < st2.length := by omega
    refine ⟨setChildren st2 ps.store.length cids, ps.store.length,
      ⟨T, [], true, cids⟩, ?_, ?_, rfl, ?_, ?_, ?_⟩
    · unfold from_tree
      simp only [hps, hrs]
      rw [hT]
      simp only [hall]
    · rw [setChildren_eq cids htop2]
      exact List.getElem?_set_self hpidlt
    · simpa using hclen
    · exact hTeq
    · refine ⟨ts, ts', ?_, ?_, hkids⟩
      · exact hts
      · simp only []
        rw [setChildren_eq cids htop2]
        rw [toTreeList_congr (fun c hc => toTree_agreeFrom ps.store.length
          (ps.store.length + 1) st2 _ hInc2
          (fun j hj hjl => List.getElem?_set_ne (show ps.store.length ≠ j by omega))
          c (by have := hcb c hc; simp only [List.length_append, List.length_cons,
            List.length_nil] at this; omega)
          (hcb c hc).2)]
        exact hts2

/-- Witness for `multi_root_wrapper` on `"x.txt\ny.txt"` wrapped under
`parent_path = "out"`. -/
theorem multi_root_wrapper_w :
    ∃ st' top d, from_tree ('x' :: '.' :: 't' :: 'x' :: 't' :: '\n' ::
        'y' :: '.' :: 't' :: 'x' :: 't' :: []) none
        (some ('o' :: 'u' :: 't' :: [])) 2 = some (st', top) ∧
      st'[top]? = some d ∧
      d.is_dir_spec = true ∧
      d.children.length = (⟨[⟨[['x', '.', 't', 'x', 't']], [], false, []⟩,
        ⟨[['y', '.', 't', 'x', 't']], [], false, []⟩], [0, 1], []⟩ : PState).roots.length ∧
      d.segs = (match (some ('o' :: 'u' :: 't' :: []) : Option Str) with
        | some p => segsOf p
        | none =>
          match (none : Option Str) with
          | some p => segsOf p
          | none => segsOf ('.' :: [])) ∧
      ∃ ts ts', toTreeList (toTree 2 [⟨[['x', '.', 't', 'x', 't']], [], false, []⟩,
          ⟨[['y', '.', 't', 'x', 't']], [], false, []⟩]) [0, 1] = some ts ∧
        toTreeList (toTree 2 st') d.children = some ts' ∧
        RebasedKids d.segs ts ts' :=
  multi_root_wrapper ('x' :: '.' :: 't' :: 'x' :: 't' :: '\n' ::
      'y' :: '.' :: 't' :: 'x' :: 't' :: []) none (some ('o' :: 'u' :: 't' :: [])) 2
    ⟨[⟨[['x', '.', 't', 'x', 't']], [], false, []⟩,
      ⟨[['y', '.', 't', 'x', 't']], [], false, []⟩], [0, 1], []⟩
    (by rfl) (by decide)

end Mktree
